import Mathlib

/-!
Shallow embedding of the zerodrop access-control core (blacklist.go,
geofence.go, and the access path of the shot handler) for checking the
natural-language specification against the code.

Strings are modelled as `List Char` (`Str`).  For ASCII text — which is all
the concrete inputs used below — Go's byte indexing and this character
indexing agree.  Floating-point `float64` is modelled by `ℚ` with exact
arithmetic; decimal parsing/formatting of the geolocation numbers is
modelled exactly, and where a theorem depends on strconv's
shortest-decimal round-trip guarantee that guarantee appears as an
explicit hypothesis.  External library calls (net.LookupIP, net.LookupAddr,
regexp matching, the geoip2 and ipcat databases, the great-circle distance
of golang-geo) are modelled as explicit environment parameters, since they
are not code of this repository.
-/

/- The Batteries rational-number operations are `@[irreducible]`, which
blocks `decide`/`rfl` evaluation of the exact-arithmetic model; restore
definitional reducibility for them within this file. -/
attribute [local semireducible] Rat.add Rat.mul Rat.sub Rat.inv
  Rat.ofScientific

/-- Decidable equality for `Except`, used to evaluate parser results in
witnesses. -/
instance {α β : Type} [DecidableEq α] [DecidableEq β] :
    DecidableEq (Except α β) := fun x y =>
  match x, y with
  | .error a, .error b =>
    if h : a = b then .isTrue (by rw [h]) else .isFalse (by simp [h])
  | .ok a, .ok b =>
    if h : a = b then .isTrue (by rw [h]) else .isFalse (by simp [h])
  | .error _, .ok _ => .isFalse (by simp)
  | .ok _, .error _ => .isFalse (by simp)

namespace Zerodrop

/-- Character strings, as lists of characters. -/
abbrev Str := List Char

/-- Decimal digit test (ASCII `0`–`9`). -/
def isDigit (c : Char) : Bool := 48 ≤ c.toNat && c.toNat ≤ 57

/-- ASCII letter test, modelling the regexp class `[A-Za-z]`. -/
def isAlpha (c : Char) : Bool :=
  (65 ≤ c.toNat && c.toNat ≤ 90) || (97 ≤ c.toNat && c.toNat ≤ 122)

/-- White space as trimmed by `strings.TrimSpace` (ASCII part). -/
def isSpace (c : Char) : Bool :=
  c = ' ' || c = '\t' || c = '\n' || c = '\x0b' || c = '\x0c' || c = '\r'

/-- Drop leading white space. -/
def trimLeft : Str → Str
  | [] => []
  | c :: cs => if isSpace c then trimLeft cs else c :: cs

/-- Drop trailing white space. -/
def trimRight : Str → Str
  | [] => []
  | c :: cs =>
    match trimRight cs with
    | [] => if isSpace c then [] else [c]
    | r => c :: r

/-- `strings.TrimSpace`. -/
def trimStr (s : Str) : Str := trimLeft (trimRight s)

/-- Cut a line at its first `#`, modelling the comment stripping of
`ParseBlacklist` (`strings.IndexByte(line, '#')`). -/
def stripComment : Str → Str
  | [] => []
  | c :: cs => if c = '#' then [] else c :: stripComment cs

/-- ASCII lower-casing of one character (`strings.ToLower` on ASCII). -/
def toLowerCh (c : Char) : Char :=
  if 65 ≤ c.toNat ∧ c.toNat ≤ 90 then Char.ofNat (c.toNat + 32) else c

/-- `strings.ToLower` on a string (ASCII). -/
def toLowerStr (s : Str) : Str := s.map toLowerCh

/-- `strings.Split(text, "\n")`. -/
def splitOnNl : Str → List Str
  | [] => [[]]
  | c :: cs =>
    if c = '\n' then [] :: splitOnNl cs
    else
      match splitOnNl cs with
      | [] => [[c]]
      | l :: ls => (c :: l) :: ls

/-- Numeric value of a run of decimal digits (most significant first). -/
def natOfDigits (s : Str) : Nat :=
  s.foldl (fun acc c => acc * 10 + (c.toNat - 48)) 0

/-- Decimal digit character for `n < 10`. -/
def digitChar (n : Nat) : Char := Char.ofNat (48 + n)

/-- Decimal rendering of a natural number, fuel-driven so that it reduces
definitionally (mirrors `strconv.Itoa` / the integer part of
`strconv.FormatFloat`). -/
def natReprAux : Nat → Nat → Str
  | 0, _ => []
  | fuel + 1, n =>
    if n < 10 then [digitChar n]
    else natReprAux fuel (n / 10) ++ [digitChar (n % 10)]

/-- Decimal rendering of a natural number. -/
def natRepr (n : Nat) : Str := natReprAux (n + 1) n

/-! ### IPv4 addresses and networks

These model the IPv4 fragment of Go's `net` package (`net.ParseIP`,
`net.ParseCIDR`, `net.IP.String`, `net.IPNet.String`, `net.IP.Equal`,
`net.IPNet.Contains`), which is the fragment the claims exercise. -/

/-- An IPv4 address as four octets. -/
structure IPv4 where
  o1 : Nat
  o2 : Nat
  o3 : Nat
  o4 : Nat
deriving DecidableEq, Repr

/-- The 32-bit value of an address. -/
def IPv4.toNat (ip : IPv4) : Nat :=
  ((ip.o1 * 256 + ip.o2) * 256 + ip.o3) * 256 + ip.o4

/-- Rebuild an address from a 32-bit value. -/
def IPv4.ofNat (n : Nat) : IPv4 :=
  ⟨n / 16777216 % 256, n / 65536 % 256, n / 256 % 256, n % 256⟩

/-- Keep only the top `bits` bits of an address (CIDR masking). -/
def maskIP (bits : Nat) (ip : IPv4) : IPv4 :=
  IPv4.ofNat (ip.toNat / 2 ^ (32 - bits) * 2 ^ (32 - bits))

/-- An IPv4 CIDR network: masked base address plus prefix length
(`net.IPNet` with a classless mask). -/
structure IPNet where
  base : IPv4
  bits : Nat
deriving DecidableEq, Repr

/-- `net.IPNet.Contains`: the address masked to the prefix equals the
network base. -/
def IPNet.Contains (nw : IPNet) (ip : IPv4) : Bool :=
  decide (maskIP nw.bits ip = nw.base)

/-- Parse one dotted-quad field: 1–3 decimal digits, value ≤ 255, no
leading zero (Go rejects leading zeros in IP literals). -/
def parseOctet (s : Str) : Option Nat :=
  if s = [] then none
  else if ¬ s.all (fun c => isDigit c) then none
  else if s.length > 1 ∧ s.head? = some '0' then none
  else if natOfDigits s ≤ 255 then some (natOfDigits s) else none

/-- Split a string at every occurrence of the given separator character. -/
def splitOnCh (sep : Char) : Str → List Str
  | [] => [[]]
  | c :: cs =>
    if c = sep then [] :: splitOnCh sep cs
    else
      match splitOnCh sep cs with
      | [] => [[c]]
      | l :: ls => (c :: l) :: ls

/-- `net.ParseIP` restricted to IPv4 dotted-quad form. -/
def parseIPv4 (s : Str) : Option IPv4 :=
  match splitOnCh '.' s with
  | [a, b, c, d] =>
    match parseOctet a, parseOctet b, parseOctet c, parseOctet d with
    | some x1, some x2, some x3, some x4 => some ⟨x1, x2, x3, x4⟩
    | _, _, _, _ => none
  | _ => none

/-- Parse a CIDR prefix length: decimal, ≤ 32, no leading zero. -/
def parseMaskBits (s : Str) : Option Nat :=
  if s = [] then none
  else if ¬ s.all (fun c => isDigit c) then none
  else if s.length > 1 ∧ s.head? = some '0' then none
  else if natOfDigits s ≤ 32 then some (natOfDigits s) else none

/-- `net.ParseCIDR` (IPv4): address, `/`, prefix length; the returned
network has its base masked to the prefix. -/
def parseCIDR (s : Str) : Option IPNet :=
  match splitOnCh '/' s with
  | [a, m] =>
    match parseIPv4 a, parseMaskBits m with
    | some ip, some bits => some ⟨maskIP bits ip, bits⟩
    | _, _ => none
  | _ => none

/-- `net.IP.String` for IPv4. -/
def ipString (ip : IPv4) : Str :=
  natRepr ip.o1 ++
    ('.' :: (natRepr ip.o2 ++ ('.' :: (natRepr ip.o3 ++
      ('.' :: natRepr ip.o4)))))

/-- `net.IPNet.String` for IPv4. -/
def netString (nw : IPNet) : Str :=
  ipString nw.base ++ ('/' :: natRepr nw.bits)

/-! ### Geofences (geofence.go) -/

/-- `Geofence` — a point on the Earth with an accuracy radius
(latitude, longitude, radius in meters). -/
structure Geofence where
  Latitude : ℚ
  Longitude : ℚ
  Radius : ℚ
deriving DecidableEq, Repr

/-- `IsDisjoint` — the two sets have no common elements. -/
def IsDisjoint : Nat := 1

/-- `IsSubset` — the first set is a subset of the second. -/
def IsSubset : Nat := 2

/-- `IsSuperset` — the second set is a subset of the first. -/
def IsSuperset : Nat := 4

/-- `Geofence.Intersection` from geofence.go.  The great-circle distance
computation of golang-geo (`GreatCircleDistance`, in kilometres) is
transcendental, so it is passed in as `gcKm`; the method multiplies it by
1000 exactly as the source does, and the branch structure is the source's:

    distance := miPoint.GreatCircleDistance(tuPoint) * 1000
    ourRadius := mi.Radius + tu.Radius
    if ourRadius > distance { i = IsDisjoint; return }
    if mi.Radius-tu.Radius > distance { i |= IsSuperset }
    if tu.Radius-mi.Radius > distance { i |= IsSubset }
-/
def Geofence.Intersection (gcKm : Geofence → Geofence → ℚ) (mi tu : Geofence) :
    Nat :=
  let distance := gcKm mi tu * 1000
  let ourRadius := mi.Radius + tu.Radius
  if ourRadius > distance then IsDisjoint
  else
    (if mi.Radius - tu.Radius > distance then IsSuperset else 0) |||
      (if tu.Radius - mi.Radius > distance then IsSubset else 0)

/-! ### Decimal numbers

`strconv.ParseFloat` / `strconv.FormatFloat(f, 'f', -1, 64)` on the plain
decimal strings admitted by the geofence regular expression, modelled with
exact rational arithmetic.  (float64 rounds the parsed value to binary; the
exact model keeps it — any theorem that leans on the format∘parse
round-trip carries it as a hypothesis, mirroring strconv's
shortest-decimal guarantee.) -/

/-- Parse an unsigned decimal of shape `[0-9]*\.?[0-9]+`. -/
def parseDecimalU (s : Str) : Option ℚ :=
  let d1 := s.takeWhile (fun c => isDigit c)
  let r := s.dropWhile (fun c => isDigit c)
  match r with
  | [] => if d1 = [] then none else some (natOfDigits d1)
  | '.' :: d2 =>
    if d2 ≠ [] ∧ d2.all (fun c => isDigit c) then
      some ((natOfDigits d1 : ℚ) + (natOfDigits d2 : ℚ) / (10 ^ d2.length : ℚ))
    else none
  | _ => none

/-- Parse a decimal with an optional leading sign. -/
def parseDecimal (s : Str) : Option ℚ :=
  match s with
  | '-' :: r => (parseDecimalU r).map (fun q => -q)
  | '+' :: r => parseDecimalU r
  | _ => parseDecimalU s

/-- Multiplicity of the prime `p` in `n` (fuel-driven). -/
def multPAux (p : Nat) : Nat → Nat → Nat
  | 0, _ => 0
  | fuel + 1, n =>
    if 2 ≤ p ∧ n ≠ 0 ∧ n % p = 0 then multPAux p fuel (n / p) + 1 else 0

/-- Multiplicity of `p` in `n`. -/
def multP (p n : Nat) : Nat := multPAux p n n

/-- Left-pad with zeros to the given length. -/
def padZeros (len : Nat) (s : Str) : Str :=
  List.replicate (len - s.length) '0' ++ s

/-- Digits of `n` with a decimal point placed `k` digits from the right
(`k = 0` renders no point). -/
def withPoint (n k : Nat) : Str :=
  if k = 0 then natRepr n
  else
    let s := padZeros (k + 1) (natRepr n)
    s.take (s.length - k) ++ '.' :: s.drop (s.length - k)

/-- Shortest exact decimal for a nonnegative rational whose denominator is
of the form `2^a * 5^b` (every nonnegative float64 value is such a
rational).  Other denominators cannot arise from float64 and fall back to
`0`. -/
def formatFloatU (x : ℚ) : Str :=
  let d := x.den
  let a := multP 2 d
  let b := multP 5 d
  if 2 ^ a * 5 ^ b = d then
    let k := max a b
    withPoint (x * 10 ^ k).num.toNat k
  else ['0']

/-- `strconv.FormatFloat(f, 'f', -1, 64)` on the exact-rational model. -/
def formatFloat (x : ℚ) : Str :=
  if x < 0 then '-' :: formatFloatU (-x) else formatFloatU x

/-! ### The geofence line pattern

`geofenceRegexp` is
`^([-+]?[0-9]*\.?[0-9]+)[^-+0-9]+([-+]?[0-9]*\.?[0-9]+)(?:[^0-9]+([0-9]*\.?[0-9]+)([A-Za-z]*)[^0-9]*)?$`.
It is modelled by the greedy left-to-right decomposition below (greedy
number, greedy separator, greedy number, optional radius group tried
first), which is how the anchored pattern matches; pathological inputs on
which Go's engine would succeed only by backtracking an earlier greedy
choice are conservatively rejected. -/

/-- Maximal prefix of shape `[0-9]*\.?[0-9]+` and the rest. -/
def lexNumCore (s : Str) : Option (Str × Str) :=
  let d1 := s.takeWhile (fun c => isDigit c)
  let r1 := s.dropWhile (fun c => isDigit c)
  match r1 with
  | '.' :: r2 =>
    let d2 := r2.takeWhile (fun c => isDigit c)
    if d2 ≠ [] then some (d1 ++ '.' :: d2, r2.dropWhile (fun c => isDigit c))
    else if d1 ≠ [] then some (d1, r1)
    else none
  | _ => if d1 ≠ [] then some (d1, r1) else none

/-- Maximal prefix of shape `[-+]?[0-9]*\.?[0-9]+` and the rest. -/
def lexNumSigned (s : Str) : Option (Str × Str) :=
  match s with
  | c :: cs =>
    if c = '-' ∨ c = '+' then (lexNumCore cs).map (fun p => (c :: p.1, p.2))
    else lexNumCore s
  | [] => none

/-- Decompose a geofence line into (latitude, longitude, radius, units)
lexemes; radius and units are empty when the optional group is absent. -/
def geofenceMatch (s : Str) : Option (Str × Str × Str × Str) :=
  match lexNumSigned s with
  | none => none
  | some (latS, r1) =>
    let sep := r1.takeWhile (fun c => !(isDigit c || c == '-' || c == '+'))
    let r2 := r1.dropWhile (fun c => !(isDigit c || c == '-' || c == '+'))
    if sep = [] then none
    else
      match lexNumSigned r2 with
      | none => none
      | some (lngS, r3) =>
        if r3 = [] then some (latS, lngS, [], [])
        else
          let sep2 := r3.takeWhile (fun c => !(isDigit c))
          let r4 := r3.dropWhile (fun c => !(isDigit c))
          if sep2 = [] then none
          else
            match lexNumCore r4 with
            | none => none
            | some (radS, r5) =>
              let unitsS := r5.takeWhile (fun c => isAlpha c)
              let r6 := r5.dropWhile (fun c => isAlpha c)
              if r6.all (fun c => !(isDigit c)) then
                some (latS, lngS, radS, unitsS)
              else none

/-- `geofenceUnits`: meters per radial unit. -/
def geofenceUnits (s : Str) : Option ℚ :=
  if s = [] then some 1
  else if s = ['m'] then some 1
  else if s = ['k', 'm'] then some 1000
  else if s = ['m', 'i'] then some 1609
  else if s = ['f', 't'] then some (1609 / 5280)
  else none

/-! ### Blacklist rules (blacklist.go) -/

/-- `BlacklistRule` — a rule or comment of a blacklist; one matching
discriminant populated per parsed rule.  `Regexp` keeps the compiled
expression's source text (Go's `Regexp.String`). -/
structure BlacklistRule where
  Comment : Str := []
  Negation : Bool := false
  All : Bool := false
  Network : Option IPNet := none
  IP : Option IPv4 := none
  Hostname : Str := []
  Regexp : Option Str := none
  Geofence : Option Geofence := none
  IPCat : Str := []
deriving DecidableEq, Repr

/-- `Blacklist` — a list of BlacklistRules. -/
structure Blacklist where
  List : List BlacklistRule
deriving DecidableEq, Repr

/-- `Blacklist.Add` appends a BlacklistRule to the Blacklist. -/
def Blacklist.Add (b : Blacklist) (item : BlacklistRule) : Blacklist :=
  ⟨b.List ++ [item]⟩

/-- `BlacklistRule.String` (the rule renderer of blacklist.go).  The
discriminants return early in source order; an IPCat body and a comment
are cumulative, exactly as in the source. -/
def BlacklistRule.String (i : BlacklistRule) : Str :=
  (if i.Negation then ['!'] else []) ++
    (if i.All then "* # Wildcard".toList
    else if h : i.Network.isSome then
      netString (i.Network.get h) ++ " # Network".toList
    else if h : i.IP.isSome then
      ipString (i.IP.get h) ++ " # IP Address".toList
    else if i.Hostname ≠ [] then i.Hostname ++ " # Hostname".toList
    else if h : i.Regexp.isSome then
      '~' :: i.Regexp.get h ++ " # Regular Expression".toList
    else if h : i.Geofence.isSome then
      let g := i.Geofence.get h
      "@ ".toList ++ formatFloat g.Latitude ++ ", ".toList ++
        formatFloat g.Longitude ++ " (".toList ++ formatFloat g.Radius ++
        "m) # Geofence".toList
    else
      (if i.IPCat ≠ [] then "ipcat ".toList ++ i.IPCat else []) ++
        (if i.Comment ≠ [] then "# ".toList ++ i.Comment else []))

/-- `Blacklist.String`: comment header counting the non-comment rules,
then one rendered line per rule. -/
def Blacklist.String (b : Blacklist) : Str :=
  let itemCount := (b.List.filter (fun i => i.Comment = [])).length
  let header :=
    if itemCount = 0 then "# Empty blacklist".toList
    else if itemCount = 1 then "# Blacklist with 1 item".toList
    else "# Blacklist with ".toList ++ natRepr itemCount ++ " items".toList
  (b.List.map BlacklistRule.String).foldl (fun acc l => acc ++ '\n' :: l)
    header

/-! ### The parser (`ParseBlacklist`) -/

/-- The external regexp library as the parser sees it: validity of a
pattern under `regexp.Compile`. -/
structure GoEnv where
  regexValid : Str → Bool

/-- The Go panic raised by `line[:6]` on a string shorter than 6 bytes. -/
def slicePanicMsg : Str := "runtime error: slice bounds out of range".toList

/-- The geofence branch of `ParseBlacklist` (case `'@'`), after the marker
has been stripped and the remainder trimmed.  Parse failures yield
comment-only rules carrying an error text, as in the source (the
`err.Error()` suffixes of the Go messages are abstracted). -/
def parseGeofenceRule (neg : Bool) (line : Str) : BlacklistRule :=
  match geofenceMatch line with
  | none =>
    { Negation := neg
      Comment := "Error: ".toList ++ line ++
        ": invalid format: must be <lng>, <lng> (<radius><unit>)?".toList }
  | some (latS, lngS, radS, unitsS) =>
    match parseDecimal latS with
    | none =>
      { Negation := neg
        Comment := "Error: ".toList ++ line ++
          ": could not parse latitude".toList }
    | some lat =>
      match parseDecimal lngS with
      | none =>
        { Negation := neg
          Comment := "Error: ".toList ++ line ++
            ": could not parse longitude".toList }
      | some lng =>
        match (if radS = [] then some (25 : ℚ) else parseDecimal radS) with
        | none =>
          { Negation := neg
            Comment := "Error: ".toList ++ line ++
              ": could not parse radius".toList }
        | some rad =>
          match geofenceUnits (toLowerStr unitsS) with
          | none =>
            { Negation := neg
              Comment := "Error: ".toList ++ line ++
                ": invalid radial units: ".toList ++ '"' :: unitsS ++ ['"'] }
          | some factor =>
            { Negation := neg
              Geofence := some ⟨lat, lng, rad * factor⟩ }

/-- The regular-expression branch of `ParseBlacklist` (case `'~'`). -/
def parseRegexpRule (env : GoEnv) (neg : Bool) (line : Str) : BlacklistRule :=
  if env.regexValid line then { Negation := neg, Regexp := some line }
  else
    { Negation := neg
      Comment := "Error: ".toList ++ line ++
        ": malformed regular expression".toList }

/-- The CIDR / IP-address / hostname tail of `ParseBlacklist`. -/
def parseAddrRule (neg : Bool) (line : Str) : BlacklistRule :=
  match parseCIDR line with
  | some nw => { Negation := neg, Network := some nw }
  | none =>
    match parseIPv4 line with
    | some ip => { Negation := neg, IP := some ip }
    | none => { Negation := neg, Hostname := toLowerStr line }

/-- The `switch line[0]` of `ParseBlacklist` and its fall-through. -/
def parseSwitch (env : GoEnv) (neg : Bool) (line : Str) : BlacklistRule :=
  match line with
  | '@' :: rest => parseGeofenceRule neg (trimStr rest)
  | '~' :: rest => parseRegexpRule env neg (trimStr rest)
  | _ => parseAddrRule neg line

/-- `ParseBlacklist` on one line, after comment stripping, trimming and
negation handling.  The checks appear in source order: the `*` wildcard,
then the `line[:6] == "ipcat "` comparison — whose slice panics when the
line is shorter than six bytes — then the `@`/`~` switch and the
CIDR/IP/hostname fall-through. -/
def parseLine2 (env : GoEnv) (neg : Bool) (line : Str) :
    Except Str (Option BlacklistRule) :=
  if line = ['*'] then .ok (some { Negation := neg, All := true })
  else if line.length < 6 then .error slicePanicMsg
  else if line.take 6 = "ipcat ".toList then
    .ok (some { Negation := neg, IPCat := trimStr (line.drop 6) })
  else .ok (some (parseSwitch env neg line))

/-- `ParseBlacklist` on one raw line: strip the `#` comment, trim, skip
blanks, consume an optional `!` negation marker. -/
def parseLine (env : GoEnv) (line0 : Str) : Except Str (Option BlacklistRule) :=
  match trimStr (stripComment line0) with
  | [] => .ok none
  | c :: cs =>
    if c = '!' then parseLine2 env true (trimStr cs)
    else parseLine2 env false (c :: cs)

/-- The line loop of `ParseBlacklist`, accumulating via `Blacklist.Add`;
a panic (`Except.error`) aborts the whole parse as in Go. -/
def parseLinesAcc (env : GoEnv) (bl : Blacklist) :
    List Str → Except Str Blacklist
  | [] => .ok bl
  | l :: ls =>
    match parseLine env l with
    | .error e => .error e
    | .ok none => parseLinesAcc env bl ls
    | .ok (some item) => parseLinesAcc env (bl.Add item) ls

/-- `ParseBlacklist` parses a text blacklist and returns a Blacklist
(or the panic it raises). -/
def ParseBlacklist (env : GoEnv) (text : Str) : Except Str Blacklist :=
  parseLinesAcc env ⟨[]⟩ (splitOnNl text)

/-! ### Evaluation (`Blacklist.Allow`) -/

/-- `ipcat.Interval` as the evaluator uses it: a named interval. -/
structure Interval where
  Name : Str
deriving DecidableEq, Repr

/-- A geoip2 city record as the evaluator uses it: coordinates plus an
accuracy radius in kilometres. -/
structure GeoRecord where
  Latitude : ℚ
  Longitude : ℚ
  AccuracyRadius : ℚ
deriving DecidableEq, Repr

/-- `BlacklistContext` — the external data used to categorize IP
addresses: an optional geolocation database (`geoip2.Reader.City`) and an
optional ipcat interval set (`IntervalSet.Contains`, which may find no
interval). -/
structure BlacklistContext where
  GeoDB : Option (IPv4 → Except Str GeoRecord)
  IPSet : Option (Str → Except Str (Option Interval))

/-- The ambient `net` and `regexp` libraries used during evaluation:
`net.LookupIP` and `net.LookupAddr` return a result list and an error flag
(Go returns `nil` results alongside a non-nil error), `regexpMatch` is
`Regexp.Match` for a compiled pattern source, and `gcDistKm` is
golang-geo's `GreatCircleDistance` in kilometres. -/
structure NetEnv where
  lookupIP : Str → List IPv4 × Bool
  lookupAddr : Str → List Str × Bool
  regexpMatch : Str → Str → Bool
  gcDistKm : Geofence → Geofence → ℚ

/-- The Hostname branch of `Blacklist.Allow`, exactly as in the source:
both result loops run only when the corresponding lookup ERRORED
(`if err != nil`), an inversion kept faithfully from blacklist.go. -/
def hostnameMatch (env : NetEnv) (ip : IPv4) (hostname : Str) : Bool :=
  let fwd := env.lookupIP hostname
  let m1 := if fwd.2 then fwd.1.any (fun addr => decide (addr = ip)) else false
  let rev := env.lookupAddr (ipString ip)
  let m2 :=
    if rev.2 then rev.1.any (fun name => decide (toLowerStr name = hostname))
    else false
  m1 || m2

/-- The Regexp branch of `Blacklist.Allow`; the loop is likewise gated on
`err != nil`, as in the source. -/
def patternMatch (env : NetEnv) (ip : IPv4) (pat : Str) : Bool :=
  let rev := env.lookupAddr (ipString ip)
  if rev.2 then rev.1.any (fun name => env.regexpMatch pat (toLowerStr name))
  else false

/-- Try a continuation on every suffix of the text (the `.*` of a glob
star). -/
def globStar (matchTail : Str → Bool) : Str → Bool
  | [] => matchTail []
  | c :: cs => matchTail (c :: cs) || globStar matchTail cs

/-- Glob matching of an ipcat pattern at the start of the text:
the pattern is `regexp.QuoteMeta` of the glob with `\*` replaced by `.*`,
so every character is literal except `*`, which matches any run. -/
def globHere : Str → Str → Bool
  | [], _ => true
  | '*' :: ps, text => globStar (globHere ps) text
  | p :: ps, text =>
    match text with
    | [] => false
    | t :: ts => p = t && globHere ps ts

/-- Unanchored search (Go's `regexp.MatchString` is a substring match):
the glob may match at any position.  Both sides are lower-cased, as in the
source. -/
def globFind : Str → Str → Bool
  | p, [] => globHere p []
  | p, c :: cs => globHere p (c :: cs) || globFind p cs

/-- The ipcat matching expression of blacklist.go (its result is computed
and then discarded by the unconditional `return false`; it is kept here
for stating claims about the intended glob semantics). -/
def globSearch (pat name : Str) : Bool :=
  globFind (toLowerStr pat) (toLowerStr name)

/-- One iteration of the rule loop of `Blacklist.Allow`.  Returns `none`
when the source executes `return false` (geofence or ipcat rule with a
missing or erroring database — and, for ipcat, unconditionally at the end
of the branch), otherwise the updated `(allow, user, category)` state.
The discriminants are tested in source order. -/
def ruleStep (env : NetEnv) (ctx : BlacklistContext) (ip : IPv4)
    (item : BlacklistRule) (allow : Bool) (user : Option Geofence)
    (category : Option Interval) :
    Option (Bool × Option Geofence × Option Interval) :=
  if item.All then
    -- Wildcard: always matches.
    some (item.Negation, user, category)
  else
    match item.Network with
    | some nw =>
      some ((if nw.Contains ip then item.Negation else allow), user, category)
    | none =>
      match item.IP with
      | some addr =>
        some ((if decide (addr = ip) then item.Negation else allow), user,
          category)
      | none =>
        if item.Hostname ≠ [] then
          some ((if hostnameMatch env ip item.Hostname then item.Negation
            else allow), user, category)
        else
          match item.Regexp with
          | some pat =>
            some ((if patternMatch env ip pat then item.Negation else allow),
              user, category)
          | none =>
            match item.Geofence with
            | some bounds =>
              match ctx.GeoDB with
              | none => none
              | some city =>
                let userE : Except Str Geofence :=
                  match user with
                  | some u => .ok u
                  | none =>
                    (city ip).map (fun rec =>
                      ⟨rec.Latitude, rec.Longitude, rec.AccuracyRadius * 1000⟩)
                match userE with
                | .error _ => none
                | .ok u =>
                  let bi := bounds.Intersection env.gcDistKm u
                  let m :=
                    if item.Negation then bi &&& IsSuperset != 0
                    else !(bi &&& IsDisjoint != 0)
                  some ((if m then item.Negation else allow), some u, category)
            | none =>
              if item.IPCat ≠ [] then
                match ctx.IPSet with
                | none => none
                | some contains =>
                  match
                    (match category with
                    | some c => Except.ok (some c)
                    | none => contains (ipString ip)) with
                  | .error _ => none
                  | .ok _found =>
                    -- the branch ends in an unconditional `return false`,
                    -- discarding the glob match it just computed
                    none
              else
                -- comment-only rule: never matches
                some (allow, user, category)

/-- The rule loop of `Blacklist.Allow`. -/
def allowLoop (env : NetEnv) (ctx : BlacklistContext) (ip : IPv4) :
    List BlacklistRule → Bool → Option Geofence → Option Interval → Bool
  | [], allow, _, _ => allow
  | item :: rest, allow, user, category =>
    match ruleStep env ctx ip item allow user category with
    | none => false
    | some (allow2, user2, category2) =>
      allowLoop env ctx ip rest allow2 user2 category2

/-- `Blacklist.Allow` decides whether the Blacklist permits the selected
IP address: `allow` starts true, the per-request geolocation and category
lookups are memoized, and each matching rule sets `allow := negation`. -/
def Blacklist.Allow (b : Blacklist) (env : NetEnv) (ctx : BlacklistContext)
    (ip : IPv4) : Bool :=
  allowLoop env ctx ip b.List true none none

/-- State-passing form of the rule loop: the rule list is threaded as
explicit state (the source only ever reads it), so the returned list is
the store after the call. -/
def allowLoopSt (env : NetEnv) (ctx : BlacklistContext) (ip : IPv4) :
    List BlacklistRule → List BlacklistRule → Bool → Option Geofence →
      Option Interval → Bool × List BlacklistRule
  | done, [], allow, _, _ => (allow, done)
  | done, item :: rest, allow, user, category =>
    match ruleStep env ctx ip item allow user category with
    | none => (false, done ++ item :: rest)
    | some (allow2, user2, category2) =>
      allowLoopSt env ctx ip (done ++ [item]) rest allow2 user2 category2

/-- `Blacklist.Allow` with the rule store threaded as state. -/
def Blacklist.AllowSt (b : Blacklist) (env : NetEnv) (ctx : BlacklistContext)
    (ip : IPv4) : Bool × Blacklist :=
  let r := allowLoopSt env ctx ip [] b.List true none none
  (r.1, ⟨r.2⟩)

/-! ### The training path of `ShotHandler.Access` -/

/-- The rules appended by the training branch of `ShotHandler.Access`:
a timestamped comment, an Address rule for the caller, and — when the
geolocation database is present and resolves the caller — a Geofence rule
for the resolved location (accuracy radius converted from km to m). -/
def trainingRules (date : Str) (ip : IPv4)
    (geo : Option GeoRecord) : List BlacklistRule :=
  { Comment := "Automatically added by training on ".toList ++ date } ::
    { IP := some ip } ::
    (match geo with
    | some rec =>
      [{ Geofence :=
          some ⟨rec.Latitude, rec.Longitude, rec.AccuracyRadius * 1000⟩ }]
    | none => [])

/-- The training branch of `ShotHandler.Access` (lines 91–110 of the shot
handler): three `Blacklist.Add` calls on the entry's blacklist, the third
conditional on a configured and successful geolocation lookup. -/
def accessTrain (bl : Blacklist) (date : Str) (ip : IPv4)
    (geoDB : Option (IPv4 → Except Str GeoRecord)) : Blacklist :=
  let bl1 := bl.Add
    { Comment := "Automatically added by training on ".toList ++ date }
  let bl2 := bl1.Add { IP := some ip }
  match geoDB with
  | none => bl2
  | some city =>
    match city ip with
    | .error _ => bl2
    | .ok rec =>
      bl2.Add
        { Geofence :=
            some ⟨rec.Latitude, rec.Longitude, rec.AccuracyRadius * 1000⟩ }

/-! ### Derived match predicate and rule classification -/

/-- The match decision of one rule, for rules that need no external
database (no Geofence, no IPCat): the same discriminant chain and the same
match expressions as `ruleStep`. -/
def simpleMatch (env : NetEnv) (ip : IPv4) (item : BlacklistRule) : Bool :=
  if item.All then true
  else
    match item.Network with
    | some nw => nw.Contains ip
    | none =>
      match item.IP with
      | some addr => decide (addr = ip)
      | none =>
        if item.Hostname ≠ [] then hostnameMatch env ip item.Hostname
        else
          match item.Regexp with
          | some pat => patternMatch env ip pat
          | none => false

/-- A rule whose populated discriminant is Geofence (the earlier
discriminants of the evaluation chain are empty). -/
def IsGeofenceRule (r : BlacklistRule) : Prop :=
  r.All = false ∧ r.Network = none ∧ r.IP = none ∧ r.Hostname = [] ∧
    r.Regexp = none ∧ r.Geofence.isSome

instance (r : BlacklistRule) : Decidable (IsGeofenceRule r) := by
  unfold IsGeofenceRule
  infer_instance

/-! ### Concrete environments used by the evaluation theorems -/

/-- A regexp library in which every pattern compiles. -/
def env0 : GoEnv := ⟨fun _ => true⟩

/-- A network environment in which every DNS lookup succeeds with no
results. -/
def net0 : NetEnv :=
  ⟨fun _ => ([], false), fun _ => ([], false), fun _ _ => false, fun _ _ => 0⟩

/-- No geolocation database and no ipcat database. -/
def ctx0 : BlacklistContext := ⟨none, none⟩

/-- An ipcat database that classifies every address as `Residential`. -/
def ctx1 : BlacklistContext :=
  ⟨none, some (fun _ => .ok (some ⟨"Residential".toList⟩))⟩

/-- An ipcat database that yields no interval for any address
(classification succeeds but finds no category). -/
def ctx2 : BlacklistContext := ⟨none, some (fun _ => .ok none)⟩

/-- A DNS environment in which forward resolution of `example.com`
succeeds (error flag false) and returns 93.184.216.34. -/
def netC3 : NetEnv :=
  ⟨fun h => (if h = "example.com".toList then [⟨93, 184, 216, 34⟩] else [],
      false),
    fun _ => ([], false), fun _ _ => false, fun _ _ => 0⟩

/-- The blacklist parsed from the two lines `!*` and `10.0.0.0/8`. -/
def blC5 : Blacklist :=
  ⟨[{ Negation := true, All := true },
    { Network := some ⟨⟨10, 0, 0, 0⟩, 8⟩ }]⟩

/-! ### Shape predicates and parse provenance (for the round-trip law) -/

/-- All four octets in range (the invariant of parsed IPv4 addresses). -/
def ValidIPv4 (ip : IPv4) : Prop :=
  ip.o1 ≤ 255 ∧ ip.o2 ≤ 255 ∧ ip.o3 ≤ 255 ∧ ip.o4 ≤ 255

/-- The concrete rule of the C7 witness: the Network rule parsed from
`10.0.0.0/8`. -/
def rC7 : BlacklistRule :=
  { Network := some ⟨⟨10, 0, 0, 0⟩, 8⟩ }

/-- The shape of an unsigned rendered decimal: a nonempty digit run,
optionally followed by `.` and another nonempty digit run. -/
def FmtShapeU (s : Str) : Prop :=
  (s ≠ [] ∧ s.all (fun c => isDigit c) = true) ∨
    ∃ d1 d2, s = d1 ++ '.' :: d2 ∧ d1 ≠ [] ∧
      d1.all (fun c => isDigit c) = true ∧ d2 ≠ [] ∧
      d2.all (fun c => isDigit c) = true

/-- The shape of a signed rendered decimal: an unsigned one with an
optional leading minus sign. -/
def FmtShapeS (s : Str) : Prop :=
  FmtShapeU s ∨ ∃ u, s = '-' :: u ∧ FmtShapeU u

/-- Provenance of a parsed (non-comment) rule: the shapes `ParseBlacklist`
can actually produce, together with the well-formedness facts each branch
guarantees, used to prove the render/re-parse round trip. -/
inductive ParsedRule (env : GoEnv) : BlacklistRule → Prop where
  | all (neg : Bool) : ParsedRule env { Negation := neg, All := true }
  | network (neg : Bool) (nw : IPNet) (h32 : nw.bits ≤ 32)
      (hv : ValidIPv4 nw.base) (hm : maskIP nw.bits nw.base = nw.base) :
      ParsedRule env { Negation := neg, Network := some nw }
  | addr (neg : Bool) (ip : IPv4) (hv : ValidIPv4 ip) :
      ParsedRule env { Negation := neg, IP := some ip }
  | host (neg : Bool) (h : Str) (hne : h ≠ []) (htr : trimStr h = h)
      (hhash : '#' ∉ h) (hnl : '\n' ∉ h) (hlow : toLowerStr h = h)
      (hstar : h ≠ ['*']) (hlen : 6 ≤ h.length)
      (hat : h.head? ≠ some '@') (htilde : h.head? ≠ some '~')
      (hbang : neg = false → h.head? ≠ some '!')
      (hcidr : parseCIDR h = none) (hip4 : parseIPv4 h = none) :
      ParsedRule env { Negation := neg, Hostname := h }
  | regex (neg : Bool) (p : Str) (hne : p ≠ []) (htr : trimStr p = p)
      (hhash : '#' ∉ p) (hnl : '\n' ∉ p) (hval : env.regexValid p = true) :
      ParsedRule env { Negation := neg, Regexp := some p }
  | geof (neg : Bool) (g : Geofence) :
      ParsedRule env { Negation := neg, Geofence := some g }
  | ipcat (neg : Bool) (q : Str) (hne : q ≠ []) (htr : trimStr q = q)
      (hhash : '#' ∉ q) (hnl : '\n' ∉ q) :
      ParsedRule env { Negation := neg, IPCat := q }

/-! ## Theorems -/

/-- C1: the source's Category branch ends in an unconditional
`return false`, so an ipcat rule (with a classifier configured) denies the
whole request even when classification yields no category for the IP, and
even when the glob does not match the classified label; evaluation never
continues to subsequent rules (here a negated wildcard that would
re-allow).  The claim's intended behavior — no match, continue — is
therefore violated by the code. -/
theorem claim_C1_ipcat_rule_forces_wholesale_denial :
    Blacklist.Allow ⟨[{ IPCat := "zzz".toList }]⟩ net0 ctx2 ⟨1, 2, 3, 4⟩
        = false ∧
    Blacklist.Allow ⟨[{ IPCat := "zzz".toList }]⟩ net0 ctx1 ⟨1, 2, 3, 4⟩
        = false ∧
    globSearch "zzz".toList "Residential".toList = false ∧
    Blacklist.Allow
        ⟨[{ IPCat := "zzz".toList }, { Negation := true, All := true }]⟩
        net0 ctx1 ⟨1, 2, 3, 4⟩ = false := by
  decide

/-- C2: `Geofence.Intersection` sets `IsDisjoint` exactly when
`radius(a) + radius(b) > distance`, i.e. when the circles overlap — the
inverse of the claimed condition `d ≥ radius(a) + radius(b)`.  At distance
0 (identical centers, radii 10) the circles coincide yet the code reports
`IsDisjoint`; at distance 1 km (= 1000 m ≥ 10 + 10) they are truly
disjoint yet the code reports no flag at all. -/
theorem claim_C2_intersection_disjoint_condition_inverted :
    Geofence.Intersection (fun _ _ => 0) ⟨0, 0, 10⟩ ⟨0, 0, 10⟩ = IsDisjoint ∧
    ¬ ((0 : ℚ) ≥ 10 + 10) ∧
    Geofence.Intersection (fun _ _ => 1) ⟨0, 0, 10⟩ ⟨0, 0, 10⟩ = 0 ∧
    ((1000 : ℚ) ≥ 10 + 10) := by
  decide

/-- C3: the Hostname branch iterates the forward-lookup results only when
the lookup errored, so a successful forward resolution whose results
contain the requester IP does not make the rule match: with the rule
`example.com` and a DNS environment resolving `example.com` to
93.184.216.34 without error, evaluation of 93.184.216.34 returns allow,
where the claim requires the rule to match and the request to be denied. -/
theorem claim_C3_hostname_rule_cannot_match :
    (netC3.lookupIP "example.com".toList).1 = [⟨93, 184, 216, 34⟩] ∧
    (netC3.lookupIP "example.com".toList).2 = false ∧
    hostnameMatch netC3 ⟨93, 184, 216, 34⟩ "example.com".toList = false ∧
    Blacklist.Allow ⟨[{ Hostname := "example.com".toList }]⟩ netC3 ctx0
        ⟨93, 184, 216, 34⟩ = true := by
  decide

/-- C4: `ParseBlacklist` is not total: the slice `line[:6]` of the ipcat
prefix test panics on any non-blank trimmed line shorter than six bytes —
a bare short IP fragment `1.2.3`, a malformed geofence `@1,2` — and the
panic aborts the whole parse, so lines after the offending one are never
parsed. -/
theorem claim_C4_parse_panics_on_short_lines :
    ParseBlacklist env0 "1.2.3".toList = .error slicePanicMsg ∧
    ParseBlacklist env0 "@1,2".toList = .error slicePanicMsg ∧
    ParseBlacklist env0 "ok.example.com\n1.2.3\n10.0.0.0/8".toList
      = .error slicePanicMsg := by
  decide

/-- C9: whenever `Geofence.Intersection` reports `IsDisjoint` it reports
nothing else: the result is either exactly `IsDisjoint` or has the
`IsDisjoint` bit clear. -/
theorem claim_C9_disjoint_flag_exclusive :
    ∀ (gc : Geofence → Geofence → ℚ) (mi tu : Geofence),
      mi.Intersection gc tu = IsDisjoint ∨
        mi.Intersection gc tu &&& IsDisjoint = 0 := by
  intro gc mi tu
  unfold Geofence.Intersection
  by_cases h1 : mi.Radius + tu.Radius > gc mi tu * 1000
  · left
    simp [h1]
  · right
    by_cases h2 : mi.Radius - tu.Radius > gc mi tu * 1000 <;>
      by_cases h3 : tu.Radius - mi.Radius > gc mi tu * 1000 <;>
        simp [h1, h2, h3] <;> decide

/-- C8: swapping the two geofences preserves the `IsDisjoint` bit (hence
the overlap verdict) and exchanges the `IsSubset` and `IsSuperset` bits,
given that the great-circle distance is symmetric in its two points. -/
theorem claim_C8_intersection_swap_symmetry :
    ∀ (gc : Geofence → Geofence → ℚ) (a b : Geofence),
      gc a b = gc b a →
      (a.Intersection gc b &&& IsDisjoint
          = b.Intersection gc a &&& IsDisjoint) ∧
      (a.Intersection gc b &&& IsSubset ≠ 0 ↔
          b.Intersection gc a &&& IsSuperset ≠ 0) ∧
      (a.Intersection gc b &&& IsSuperset ≠ 0 ↔
          b.Intersection gc a &&& IsSubset ≠ 0) := by
  intro gc a b h
  unfold Geofence.Intersection
  rw [h, add_comm b.Radius a.Radius]
  by_cases h1 : a.Radius + b.Radius > gc b a * 1000
  · simp [h1]
    decide
  · by_cases h2 : a.Radius - b.Radius > gc b a * 1000 <;>
      by_cases h3 : b.Radius - a.Radius > gc b a * 1000 <;>
        simp [h1, h2, h3] <;> decide

/-- Witness for C8 at a concrete symmetric distance function and concrete
geofences. -/
theorem claim_C8_witness :
    ((Geofence.Intersection (fun _ _ => 0) ⟨0, 0, 1⟩ ⟨0, 0, 2⟩ &&& IsDisjoint
        = Geofence.Intersection (fun _ _ => 0) ⟨0, 0, 2⟩ ⟨0, 0, 1⟩ &&&
            IsDisjoint) ∧
      (Geofence.Intersection (fun _ _ => 0) ⟨0, 0, 1⟩ ⟨0, 0, 2⟩ &&& IsSubset
            ≠ 0 ↔
        Geofence.Intersection (fun _ _ => 0) ⟨0, 0, 2⟩ ⟨0, 0, 1⟩ &&&
            IsSuperset ≠ 0) ∧
      (Geofence.Intersection (fun _ _ => 0) ⟨0, 0, 1⟩ ⟨0, 0, 2⟩ &&& IsSuperset
            ≠ 0 ↔
        Geofence.Intersection (fun _ _ => 0) ⟨0, 0, 2⟩ ⟨0, 0, 1⟩ &&&
            IsSubset ≠ 0)) :=
  claim_C8_intersection_swap_symmetry (fun _ _ => 0) ⟨0, 0, 1⟩ ⟨0, 0, 2⟩ rfl

/-- A geofence rule evaluated with no geolocation database configured
makes the loop body execute `return false` unconditionally. -/
theorem ruleStep_none_of_geofence_noDB (env : NetEnv) (ctx : BlacklistContext)
    (ip : IPv4) (item : BlacklistRule) (allow : Bool) (user : Option Geofence)
    (category : Option Interval) (hdb : ctx.GeoDB = none)
    (hg : IsGeofenceRule item) :
    ruleStep env ctx ip item allow user category = none := by
  obtain ⟨h1, h2, h3, h4, h5, h6⟩ := hg
  obtain ⟨g, hg6⟩ := Option.isSome_iff_exists.mp h6
  unfold ruleStep
  simp [h1, h2, h3, h4, h5, hg6, hdb]

/-- The rule loop returns false whenever the list still contains a
geofence rule and no geolocation database is configured: every earlier
rule either hard-stops with false itself or passes control further down
the list. -/
theorem allowLoop_false_of_geofence_noDB (env : NetEnv)
    (ctx : BlacklistContext) (ip : IPv4) :
    ∀ (rs : List BlacklistRule) (allow : Bool) (user : Option Geofence)
      (category : Option Interval), ctx.GeoDB = none →
      (∃ r ∈ rs, IsGeofenceRule r) →
      allowLoop env ctx ip rs allow user category = false := by
  intro rs
  induction rs with
  | nil =>
    intro allow user category _ hex
    obtain ⟨r, hr, _⟩ := hex
    exact absurd hr (List.not_mem_nil r)
  | cons item rest ih =>
    intro allow user category hdb hex
    obtain ⟨r, hr, hgr⟩ := hex
    rcases List.mem_cons.mp hr with heq | hmem
    · subst heq
      unfold allowLoop
      rw [ruleStep_none_of_geofence_noDB env ctx ip r allow user category hdb
        hgr]
    · unfold allowLoop
      cases hstep : ruleStep env ctx ip item allow user category with
      | none => rfl
      | some s =>
        obtain ⟨a2, u2, c2⟩ := s
        exact ih a2 u2 c2 hdb ⟨r, hmem, hgr⟩

/-- C6: for every rule set containing a Geofence rule, evaluation with a
context that has no geolocation database returns deny, whatever the other
rules and whether or not the Geofence rule is negated (the source returns
false before consulting the negation flag). -/
theorem claim_C6_geofence_without_database_denies (env : NetEnv)
    (ctx : BlacklistContext) (b : Blacklist) (ip : IPv4)
    (hdb : ctx.GeoDB = none) (hex : ∃ r ∈ b.List, IsGeofenceRule r) :
    b.Allow env ctx ip = false :=
  allowLoop_false_of_geofence_noDB env ctx ip b.List true none none hdb hex

/-- Witness for C6: a negated wildcard that would otherwise allow,
followed by a (non-negated) Geofence rule, evaluated without a
geolocation database. -/
theorem claim_C6_witness :
    Blacklist.Allow
        ⟨[{ Negation := true, All := true }, { Geofence := some ⟨1, 2, 25⟩ }]⟩
        net0 ctx0 ⟨1, 2, 3, 4⟩ = false :=
  claim_C6_geofence_without_database_denies net0 ctx0
    ⟨[{ Negation := true, All := true }, { Geofence := some ⟨1, 2, 25⟩ }]⟩
    ⟨1, 2, 3, 4⟩ rfl
    ⟨{ Geofence := some ⟨1, 2, 25⟩ }, by decide, by decide⟩

/-- For a rule that needs no external database, one loop iteration never
hard-stops and updates `allow` by the rule's match decision. -/
theorem ruleStep_simple (env : NetEnv) (ctx : BlacklistContext) (ip : IPv4)
    (item : BlacklistRule) (allow : Bool) (user : Option Geofence)
    (category : Option Interval) (h1 : item.Geofence = none)
    (h2 : item.IPCat = []) :
    ruleStep env ctx ip item allow user category =
      some ((if simpleMatch env ip item then item.Negation else allow),
        user, category) := by
  unfold ruleStep simpleMatch
  cases hAll : item.All with
  | true => simp
  | false =>
    simp only [Bool.false_eq_true, if_false]
    cases hnw : item.Network with
    | some nw => rfl
    | none =>
      cases hip : item.IP with
      | some addr => rfl
      | none =>
        by_cases hh : item.Hostname ≠ []
        · simp [hh]
        · simp only [hh, if_false]
          cases hre : item.Regexp with
          | some pat => rfl
          | none => simp [h1, h2]

/-- Over database-free rules the loop is a pure fold of match decisions,
and its outcome is the negation flag of the last matching rule (or the
incoming `allow` when none matches). -/
theorem allowLoop_lastMatch (env : NetEnv) (ctx : BlacklistContext)
    (ip : IPv4) :
    ∀ (rs : List BlacklistRule) (allow : Bool) (user : Option Geofence)
      (category : Option Interval),
      (∀ r ∈ rs, r.Geofence = none ∧ r.IPCat = []) →
      allowLoop env ctx ip rs allow user category =
        ((rs.reverse.find? (fun r => simpleMatch env ip r)).map
          (fun r => r.Negation)).getD allow := by
  intro rs
  induction rs with
  | nil => intro allow user category _; rfl
  | cons item rest ih =>
    intro allow user category hfree
    have hitem := hfree item (List.mem_cons_self item rest)
    unfold allowLoop
    rw [ruleStep_simple env ctx ip item allow user category hitem.1 hitem.2]
    dsimp only
    rw [ih _ user category (fun r hr => hfree r (List.mem_cons_of_mem _ hr))]
    rw [List.reverse_cons, List.find?_append]
    cases hfind : rest.reverse.find? (fun r => simpleMatch env ip r) with
    | some r => simp [hfind]
    | none =>
      simp only [hfind, Option.none_or]
      cases hm : simpleMatch env ip item with
      | true => simp [List.find?, hm]
      | false => simp [List.find?, hm]

/-- C5 counterexample to the claim's general formula `allow := not
negated`: with the single non-negated wildcard rule, the wildcard is the
last matching rule, `not negated` is `true` (allow), yet evaluation
returns false (deny) — the source assigns `allow = item.Negation`. -/
theorem claim_C5_counterexample :
    Blacklist.Allow ⟨[{ All := true }]⟩ net0 ctx0 ⟨1, 2, 3, 4⟩ = false ∧
    (!({ All := true } : BlacklistRule).Negation) = true := by
  decide

/-- C5 (amended): the ruleset parsed from `!*` and `10.0.0.0/8` denies
10.1.2.3 and allows 8.8.8.8; in general, for rules needing no external
database (no fail-closed hard stop), every rule is considered and the last
matching rule determines the result via `allow := negated`. -/
theorem claim_C5_last_matching_rule_wins :
    ParseBlacklist env0 "!*\n10.0.0.0/8".toList = .ok blC5 ∧
    blC5.Allow net0 ctx0 ⟨10, 1, 2, 3⟩ = false ∧
    blC5.Allow net0 ctx0 ⟨8, 8, 8, 8⟩ = true ∧
    (∀ (env : NetEnv) (ctx : BlacklistContext) (b : Blacklist) (ip : IPv4),
      (∀ r ∈ b.List, r.Geofence = none ∧ r.IPCat = []) →
      b.Allow env ctx ip =
        ((b.List.reverse.find? (fun r => simpleMatch env ip r)).map
          (fun r => r.Negation)).getD true) :=
  ⟨by decide, by decide, by decide,
    fun env ctx b ip h => allowLoop_lastMatch env ctx ip b.List true none none h⟩

/-- Witness for C5 at the concrete parsed ruleset and IP 10.1.2.3. -/
theorem claim_C5_witness :
    blC5.Allow net0 ctx0 ⟨10, 1, 2, 3⟩ =
      ((blC5.List.reverse.find?
          (fun r => simpleMatch net0 ⟨10, 1, 2, 3⟩ r)).map
        (fun r => r.Negation)).getD true :=
  claim_C5_last_matching_rule_wins.2.2.2 net0 ctx0 blC5 ⟨10, 1, 2, 3⟩
    (by decide)

/-- The state-passing loop computes the same verdict as the plain loop
and returns its rule store unchanged. -/
theorem allowLoopSt_spec (env : NetEnv) (ctx : BlacklistContext) (ip : IPv4) :
    ∀ (rs done : List BlacklistRule) (allow : Bool) (user : Option Geofence)
      (category : Option Interval),
      allowLoopSt env ctx ip done rs allow user category =
        (allowLoop env ctx ip rs allow user category, done ++ rs) := by
  intro rs
  induction rs with
  | nil => intro done allow user category; simp [allowLoopSt, allowLoop]
  | cons item rest ih =>
    intro done allow user category
    unfold allowLoopSt allowLoop
    cases hstep : ruleStep env ctx ip item allow user category with
    | none => rfl
    | some s =>
      obtain ⟨a2, u2, c2⟩ := s
      dsimp only
      rw [ih (done ++ [item]) a2 u2 c2]
      simp

/-- C10: evaluation is read-only with respect to its rule set — the
state-passing form of `Allow` returns the very blacklist it was given
(and the same verdict) — while the training branch of the shot handler's
`Access` only appends: its result is the original list extended with the
timestamped comment, the caller's Address rule, and (when geolocation is
configured and succeeds) the caller's Geofence rule. -/
theorem claim_C10_allow_is_readonly :
    (∀ (b : Blacklist) (env : NetEnv) (ctx : BlacklistContext) (ip : IPv4),
      (b.AllowSt env ctx ip).1 = b.Allow env ctx ip ∧
        (b.AllowSt env ctx ip).2 = b) ∧
    (∀ (bl : Blacklist) (date : Str) (ip : IPv4)
      (geoDB : Option (IPv4 → Except Str GeoRecord)),
      (accessTrain bl date ip geoDB).List =
        bl.List ++ trainingRules date ip
          (match geoDB with
          | some city =>
            match city ip with
            | .ok rec => some rec
            | .error _ => none
          | none => none)) := by
  constructor
  · intro b env ctx ip
    unfold Blacklist.AllowSt Blacklist.Allow
    rw [allowLoopSt_spec env ctx ip b.List [] true none none]
    exact ⟨rfl, by simp⟩
  · intro bl date ip geoDB
    cases geoDB with
    | none => simp [accessTrain, trainingRules, Blacklist.Add]
    | some city =>
      cases hres : city ip with
      | error e => simp [accessTrain, trainingRules, Blacklist.Add, hres]
      | ok rec => simp [accessTrain, trainingRules, Blacklist.Add, hres]

/-! ### String lemmas for the round-trip proof -/

theorem toNat_ofNat_small {n : Nat} (h : n < 55296) :
    (Char.ofNat n).toNat = n := by
  unfold Char.ofNat
  split
  · show (Char.ofNatAux n _).toNat = n
    unfold Char.ofNatAux
    show (UInt32.ofNat' n _).toNat = n
    simp [UInt32.ofNat', UInt32.toNat, BitVec.ofNat]
  · rename_i hh
    exact absurd (Or.inl h) hh

theorem toLowerCh_spec (c : Char) :
    toLowerCh c = c ∨
      (97 ≤ (toLowerCh c).toNat ∧ (toLowerCh c).toNat ≤ 122 ∧
        65 ≤ c.toNat ∧ c.toNat ≤ 90) := by
  unfold toLowerCh
  split
  · rename_i h
    right
    have hval : (Char.ofNat (c.toNat + 32)).toNat = c.toNat + 32 :=
      toNat_ofNat_small (by omega)
    omega
  · left; rfl

theorem toLowerCh_eq_special {c d : Char} (hd : d.toNat < 97 ∨ 122 < d.toNat)
    (h : toLowerCh c = d) : c = d := by
  rcases toLowerCh_spec c with hfix | ⟨h1, h2, _, _⟩
  · rw [← hfix, h]
  · rw [h] at h1 h2; omega

theorem toLowerCh_idem (c : Char) : toLowerCh (toLowerCh c) = toLowerCh c := by
  rcases toLowerCh_spec c with hfix | ⟨h1, h2, _, _⟩
  · rw [hfix]
    exact hfix
  · generalize hd : toLowerCh c = d at h1 h2
    show toLowerCh d = d
    unfold toLowerCh
    rw [if_neg (by omega)]

theorem toLowerStr_idem (s : Str) : toLowerStr (toLowerStr s) = toLowerStr s := by
  unfold toLowerStr
  rw [List.map_map]
  exact List.map_congr_left (fun c _ => toLowerCh_idem c)

theorem isSpace_toNat {c : Char} (h : isSpace c = true) : c.toNat ≤ 32 := by
  unfold isSpace at h
  simp only [Bool.or_eq_true, decide_eq_true_eq] at h
  rcases h with ((((h | h) | h) | h) | h) | h <;> subst h <;> decide

theorem isSpace_toLowerCh (c : Char) : isSpace (toLowerCh c) = isSpace c := by
  rcases toLowerCh_spec c with hfix | ⟨h1, _, h3, _⟩
  · rw [hfix]
  · have e1 : isSpace (toLowerCh c) = false := by
      cases he : isSpace (toLowerCh c)
      · rfl
      · have := isSpace_toNat he; omega
    have e2 : isSpace c = false := by
      cases he : isSpace c
      · rfl
      · have := isSpace_toNat he; omega
    rw [e1, e2]

theorem toLowerCh_mem_str {c : Char} {s : Str} (h : c ∈ s) :
    toLowerCh c ∈ toLowerStr s := List.mem_map_of_mem toLowerCh h

/-! trim lemmas -/

theorem trimLeft_cons (c : Char) (s : Str) :
    trimLeft (c :: s) = if isSpace c then trimLeft s else c :: s := rfl

theorem trimRight_cons (c : Char) (s : Str) :
    trimRight (c :: s) =
      if trimRight s = [] then (if isSpace c then [] else [c])
      else c :: trimRight s := by
  show (match trimRight s with
    | [] => if isSpace c then [] else [c]
    | r => c :: r) = _
  cases hr : trimRight s with
  | nil => simp
  | cons r rs => simp

theorem trimLeft_suffix (s : Str) : trimLeft s <:+ s := by
  induction s with
  | nil => exact List.suffix_rfl
  | cons c cs ih =>
    rw [trimLeft_cons]
    split
    · exact ih.trans (List.suffix_cons c cs)
    · exact List.suffix_rfl

theorem trimRight_prefix (s : Str) : trimRight s <+: s := by
  induction s with
  | nil => exact List.prefix_rfl
  | cons c cs ih =>
    rw [trimRight_cons]
    split
    · split
      · exact List.nil_prefix
      · exact ⟨cs, rfl⟩
    · obtain ⟨t, ht⟩ := ih
      exact ⟨t, by rw [List.cons_append, ht]⟩

theorem trimLeft_cons_of_neg {c : Char} {s : Str} (h : ¬ isSpace c = true) :
    trimLeft (c :: s) = c :: s := by
  rw [trimLeft_cons, if_neg h]

theorem trimLeft_idem (s : Str) : trimLeft (trimLeft s) = trimLeft s := by
  induction s with
  | nil => rfl
  | cons c cs ih =>
    rw [trimLeft_cons]
    split
    · exact ih
    · rename_i h
      exact trimLeft_cons_of_neg h

theorem trimRight_append_space {c : Char} {s : Str} (h : isSpace c = true) :
    trimRight (s ++ [c]) = trimRight s := by
  induction s with
  | nil => simp [trimRight_cons, trimRight, h]
  | cons x xs ih =>
    rw [List.cons_append, trimRight_cons, ih, trimRight_cons]

theorem trimRight_cons_of_fix {c : Char} {s : Str} (hc : ¬ isSpace c = true)
    (h : trimRight s = s) : trimRight (c :: s) = c :: s := by
  rw [trimRight_cons, h]
  cases s with
  | nil => simp [hc]
  | cons x xs => simp

theorem trimRight_cons_of_ne_nil {c : Char} {s : Str}
    (h : trimRight s ≠ []) : trimRight (c :: s) = c :: trimRight s := by
  rw [trimRight_cons, if_neg h]

theorem trimRight_last_not_space {s : Str} {c : Char}
    (hl : s.getLast? = some c) (hc : ¬ isSpace c = true) : trimRight s = s := by
  induction s with
  | nil => simp at hl
  | cons x xs ih =>
    cases xs with
    | nil =>
      simp only [List.getLast?_singleton, Option.some_inj] at hl
      subst hl
      simp [trimRight, hc]
    | cons y ys =>
      have hl2 : (y :: ys).getLast? = some c := by
        rw [List.getLast?_cons_cons] at hl
        exact hl
      have he : trimRight (y :: ys) = y :: ys := ih hl2
      rw [trimRight_cons_of_ne_nil (by rw [he]; exact List.cons_ne_nil y ys),
        he]

theorem trimRight_eq_self_of_trimStr {s : Str} (h : trimStr s = s) :
    trimRight s = s := by
  refine ( trimRight_prefix s).eq_of_length (Nat.le_antisymm
    ( trimRight_prefix s).length_le ?_)
  calc s.length = (trimStr s).length := (congrArg List.length h).symm
    _ ≤ (trimRight s).length := (trimLeft_suffix (trimRight s)).length_le

theorem trimLeft_eq_self_of_trimStr {s : Str} (h : trimStr s = s) :
    trimLeft s = s := by
  calc trimLeft s = trimLeft (trimRight s) := by
        rw [trimRight_eq_self_of_trimStr h]
    _ = s := h

theorem trimStr_append_space (s : Str) : trimStr (s ++ [' ']) = trimStr s := by
  unfold trimStr
  rw [trimRight_append_space (by decide)]

theorem trimRight_last {s : Str} {c : Char}
    (h : (trimRight s).getLast? = some c) : ¬ isSpace c = true := by
  induction s with
  | nil => simp [trimRight] at h
  | cons x xs ih =>
    rw [trimRight_cons] at h
    by_cases he : trimRight xs = []
    · rw [if_pos he] at h
      by_cases hx : isSpace x
      · rw [if_pos hx] at h
        simp at h
      · rw [if_neg hx] at h
        simp only [List.getLast?_singleton, Option.some_inj] at h
        rw [← h]
        exact hx
    · rw [if_neg he] at h
      obtain ⟨y, ys, hys⟩ := List.exists_cons_of_ne_nil he
      rw [hys, List.getLast?_cons_cons] at h
      exact ih (by rw [hys]; exact h)

theorem suffix_getLast? {l1 l2 : Str} (h : l1 <:+ l2) (hne : l1 ≠ []) :
    l2.getLast? = l1.getLast? := by
  obtain ⟨t, ht⟩ := h
  rw [← ht]
  exact List.getLast?_append_of_ne_nil t hne

theorem trimStr_idem (s : Str) : trimStr (trimStr s) = trimStr s := by
  show trimLeft (trimRight (trimLeft (trimRight s))) =
    trimLeft (trimRight s)
  by_cases hz : trimLeft (trimRight s) = []
  · rw [hz]
    rfl
  · obtain ⟨c, hc⟩ := Option.isSome_iff_exists.mp
      (List.getLast?_isSome.mpr hz)
    have hlast : (trimRight s).getLast? = some c := by
      rw [suffix_getLast? (trimLeft_suffix (trimRight s)) hz]
      exact hc
    have hcs : ¬ isSpace c = true := trimRight_last hlast
    rw [trimRight_last_not_space hc hcs]
    exact trimLeft_idem (trimRight s)

theorem trimLeft_ne_nil_of_mem {s : Str} {c : Char} (hm : c ∈ s)
    (hc : ¬ isSpace c = true) : trimLeft s ≠ [] := by
  induction s with
  | nil => simp at hm
  | cons x xs ih =>
    rw [trimLeft_cons]
    by_cases hx : isSpace x
    · rw [if_pos hx]
      rcases List.mem_cons.mp hm with he | hm2
      · subst he
        exact absurd hx hc
      · exact ih hm2
    · rw [if_neg hx]
      exact List.cons_ne_nil x xs

theorem trimStr_ne_nil_of_last {s : Str} {c : Char}
    (hl : s.getLast? = some c) (hc : ¬ isSpace c = true) : trimStr s ≠ [] := by
  unfold trimStr
  rw [trimRight_last_not_space hl hc]
  exact trimLeft_ne_nil_of_mem (List.mem_of_mem_getLast? hl) hc

theorem trimStr_last {s : Str} (h : trimStr s = s) (hne : s ≠ []) :
    ∃ c, s.getLast? = some c ∧ ¬ isSpace c = true := by
  obtain ⟨c, hc⟩ := Option.isSome_iff_exists.mp (List.getLast?_isSome.mpr hne)
  refine ⟨c, hc, ?_⟩
  apply trimRight_last (s := s)
  rw [trimRight_eq_self_of_trimStr h]
  exact hc

/-! stripComment lemmas -/

theorem stripComment_cons (c : Char) (s : Str) :
    stripComment (c :: s) = if c = '#' then [] else c :: stripComment s := rfl

theorem stripComment_prefix (s : Str) : stripComment s <+: s := by
  induction s with
  | nil => exact List.prefix_rfl
  | cons c cs ih =>
    rw [stripComment_cons]
    split
    · exact List.nil_prefix
    · obtain ⟨t, ht⟩ := ih
      exact ⟨t, by rw [List.cons_append, ht]⟩

theorem stripComment_no_hash (s : Str) : '#' ∉ stripComment s := by
  induction s with
  | nil => simp [stripComment]
  | cons c cs ih =>
    rw [stripComment_cons]
    split
    · simp
    · rename_i hc
      intro hm
      rcases List.mem_cons.mp hm with he | hm2
      · exact hc he.symm
      · exact ih hm2

theorem stripComment_of_no_hash {s : Str} (h : '#' ∉ s) :
    stripComment s = s := by
  induction s with
  | nil => rfl
  | cons c cs ih =>
    rw [stripComment_cons,
      if_neg (fun he => h (by rw [← he]; exact List.mem_cons_self c cs))]
    rw [ih (fun hm => h (List.mem_cons_of_mem c hm))]

theorem stripComment_append_hash {s t : Str} (h : '#' ∉ s) :
    stripComment (s ++ '#' :: t) = s := by
  induction s with
  | nil => simp [stripComment_cons]
  | cons c cs ih =>
    rw [List.cons_append, stripComment_cons,
      if_neg (fun he => h (by rw [← he]; exact List.mem_cons_self c cs))]
    rw [ih (fun hm => h (List.mem_cons_of_mem c hm))]

/-! splitOnNl lemmas -/

theorem splitOnNl_cons (c : Char) (cs : Str) :
    splitOnNl (c :: cs) =
      if c = '\n' then [] :: splitOnNl cs
      else
        match splitOnNl cs with
        | [] => [[c]]
        | l :: ls => (c :: l) :: ls := rfl

theorem splitOnNl_of_no_nl {s : Str} (h : '\n' ∉ s) : splitOnNl s = [s] := by
  induction s with
  | nil => rfl
  | cons c cs ih =>
    rw [splitOnNl_cons,
      if_neg (fun he => h (by rw [← he]; exact List.mem_cons_self c cs))]
    rw [ih (fun hm => h (List.mem_cons_of_mem c hm))]

theorem splitOnNl_mem_no_nl {s : Str} :
    ∀ p ∈ splitOnNl s, '\n' ∉ p := by
  induction s with
  | nil =>
    intro p hp
    simp only [splitOnNl, List.mem_singleton] at hp
    simp [hp]
  | cons c cs ih =>
    intro p hp
    rw [splitOnNl_cons] at hp
    by_cases hc : c = '\n'
    · rw [if_pos hc] at hp
      rcases List.mem_cons.mp hp with he | hm
      · simp [he]
      · exact ih p hm
    · rw [if_neg hc] at hp
      cases hsp : splitOnNl cs with
      | nil =>
        simp only [hsp, List.mem_singleton] at hp
        rw [hp]
        intro hm
        exact hc (List.mem_singleton.mp hm).symm
      | cons l ls =>
        rw [hsp] at hp
        rcases List.mem_cons.mp hp with he | hm
        · subst he
          intro hmem
          rcases List.mem_cons.mp hmem with he2 | hm2
          · exact hc he2.symm
          · exact ih l (hsp ▸ List.mem_cons_self l ls) hm2
        · exact ih p (hsp ▸ List.mem_cons_of_mem l hm)

/-! takeWhile / dropWhile append lemmas -/

theorem takeWhile_append_all {p : Char → Bool} {xs ys : Str}
    (h : ∀ c ∈ xs, p c = true) :
    (xs ++ ys).takeWhile p = xs ++ ys.takeWhile p := by
  induction xs with
  | nil => rfl
  | cons x xt ih =>
    rw [List.cons_append,
      List.takeWhile_cons_of_pos (h x (List.mem_cons_self x xt)),
      ih (fun c hc => h c (List.mem_cons_of_mem x hc)), List.cons_append]

theorem dropWhile_append_all {p : Char → Bool} {xs ys : Str}
    (h : ∀ c ∈ xs, p c = true) :
    (xs ++ ys).dropWhile p = ys.dropWhile p := by
  induction xs with
  | nil => rfl
  | cons x xt ih =>
    rw [List.cons_append,
      List.dropWhile_cons_of_pos (h x (List.mem_cons_self x xt)),
      ih (fun c hc => h c (List.mem_cons_of_mem x hc))]

/-! ### Digit, IP and CIDR lemmas -/

theorem natReprAux_digits :
    ∀ fuel n, n < fuel →
      natReprAux fuel n ≠ [] ∧ ∀ c ∈ natReprAux fuel n, isDigit c = true := by
  intro fuel
  induction fuel with
  | zero => intro n h; omega
  | succ f ih =>
    intro n h
    unfold natReprAux
    by_cases hn : n < 10
    · rw [if_pos hn]
      refine ⟨List.cons_ne_nil _ _, ?_⟩
      intro c hc
      rcases List.mem_singleton.mp hc with he
      subst he
      unfold digitChar isDigit
      rw [show (Char.ofNat (48 + n)).toNat = 48 + n from
        toNat_ofNat_small (by omega)]
      simp only [Bool.and_eq_true, decide_eq_true_eq]
      omega
    · rw [if_neg hn]
      have hlt : n / 10 < f := by
        have := Nat.div_lt_self (show 0 < n by omega) (show 1 < 10 by omega)
        omega
      obtain ⟨hne, hdig⟩ := ih (n / 10) hlt
      refine ⟨by simp [hne], ?_⟩
      intro c hc
      rcases List.mem_append.mp hc with hm | hm
      · exact hdig c hm
      · rcases List.mem_singleton.mp hm with he
        subst he
        unfold digitChar isDigit
        rw [show (Char.ofNat (48 + n % 10)).toNat = 48 + n % 10 from
          toNat_ofNat_small (by omega)]
        simp only [Bool.and_eq_true, decide_eq_true_eq]
        omega

theorem natRepr_digits (n : Nat) :
    natRepr n ≠ [] ∧ ∀ c ∈ natRepr n, isDigit c = true :=
  natReprAux_digits (n + 1) n (Nat.lt_succ_self n)

set_option maxRecDepth 8192 in
theorem parseOctet_natRepr : ∀ n, n < 256 → parseOctet (natRepr n) = some n := by
  decide

theorem parseMaskBits_natRepr :
    ∀ n, n ≤ 32 → parseMaskBits (natRepr n) = some n := by
  decide

theorem isDigit_toNat {c : Char} (h : isDigit c = true) :
    48 ≤ c.toNat ∧ c.toNat ≤ 57 := by
  unfold isDigit at h
  simp only [Bool.and_eq_true, decide_eq_true_eq] at h
  exact h

/-! splitOnCh lemmas -/

theorem splitOnCh_cons (sep c : Char) (cs : Str) :
    splitOnCh sep (c :: cs) =
      if c = sep then [] :: splitOnCh sep cs
      else
        match splitOnCh sep cs with
        | [] => [[c]]
        | l :: ls => (c :: l) :: ls := rfl

theorem splitOnCh_ne_nil (sep : Char) (s : Str) : splitOnCh sep s ≠ [] := by
  cases s with
  | nil => simp [splitOnCh]
  | cons c cs =>
    rw [splitOnCh_cons]
    split
    · simp
    · split <;> simp

theorem splitOnCh_of_not_mem {sep : Char} {s : Str} (h : sep ∉ s) :
    splitOnCh sep s = [s] := by
  induction s with
  | nil => rfl
  | cons c cs ih =>
    rw [splitOnCh_cons,
      if_neg (fun he => h (by rw [← he]; exact List.mem_cons_self c cs))]
    rw [ih (fun hm => h (List.mem_cons_of_mem c hm))]

theorem splitOnCh_append {sep : Char} {a b : Str} (h : sep ∉ a) :
    splitOnCh sep (a ++ sep :: b) = a :: splitOnCh sep b := by
  induction a with
  | nil => simp [splitOnCh_cons]
  | cons c cs ih =>
    rw [List.cons_append, splitOnCh_cons,
      if_neg (fun he => h (by rw [← he]; exact List.mem_cons_self c cs)),
      ih (fun hm => h (List.mem_cons_of_mem c hm))]

theorem splitOnCh_mem {sep c : Char} {s : Str} (h : c ∈ s) :
    c = sep ∨ ∃ p ∈ splitOnCh sep s, c ∈ p := by
  induction s with
  | nil => simp at h
  | cons x xs ih =>
    rw [splitOnCh_cons]
    by_cases hx : x = sep
    · rw [if_pos hx]
      rcases List.mem_cons.mp h with he | hm
      · left; rw [he, hx]
      · rcases ih hm with he | ⟨p, hp, hcp⟩
        · left; exact he
        · right; exact ⟨p, List.mem_cons_of_mem _ hp, hcp⟩
    · rw [if_neg hx]
      cases hsp : splitOnCh sep xs with
      | nil => exact absurd hsp (splitOnCh_ne_nil sep xs)
      | cons l ls =>
        rcases List.mem_cons.mp h with he | hm
        · right
          exact ⟨x :: l, List.mem_cons_self _ _, he ▸ List.mem_cons_self x l⟩
        · rcases ih hm with he | ⟨p, hp, hcp⟩
          · left; exact he
          · rw [hsp] at hp
            rcases List.mem_cons.mp hp with hpe | hpm
            · right
              exact ⟨x :: l, List.mem_cons_self _ _,
                hpe ▸ List.mem_cons_of_mem x hcp⟩
            · right
              exact ⟨p, List.mem_cons_of_mem _ hpm, hcp⟩

/-! parse/render inverses for IPs and networks -/

theorem parseOctet_inv {s : Str} {v : Nat} (h : parseOctet s = some v) :
    s ≠ [] ∧ (∀ c ∈ s, isDigit c = true) ∧ v ≤ 255 := by
  unfold parseOctet at h
  split at h
  · exact absurd h (by simp)
  · split at h
    · exact absurd h (by simp)
    · split at h
      · exact absurd h (by simp)
      · rename_i hne hdig _
        split at h
        · rename_i hv
          have hall := not_not.mp hdig
          simp only [List.all_eq_true, decide_eq_true_eq] at hall
          have hveq : natOfDigits s = v := by simpa using h
          exact ⟨hne, fun c hc => by
            have := hall c hc
            simpa using this, hveq ▸ hv⟩
        · exact absurd h (by simp)

theorem parseMaskBits_inv {s : Str} {v : Nat} (h : parseMaskBits s = some v) :
    (∀ c ∈ s, isDigit c = true) ∧ v ≤ 32 := by
  unfold parseMaskBits at h
  split at h
  · exact absurd h (by simp)
  · split at h
    · exact absurd h (by simp)
    · split at h
      · exact absurd h (by simp)
      · rename_i hne hdig _
        split at h
        · rename_i hv
          have hall := not_not.mp hdig
          simp only [List.all_eq_true, decide_eq_true_eq] at hall
          have hveq : natOfDigits s = v := by simpa using h
          exact ⟨fun c hc => by
            have := hall c hc
            simpa using this, hveq ▸ hv⟩
        · exact absurd h (by simp)

theorem parseIPv4_inv {s : Str} {ip : IPv4} (h : parseIPv4 s = some ip) :
    ValidIPv4 ip ∧ ∀ c ∈ s, isDigit c = true ∨ c = '.' := by
  unfold parseIPv4 at h
  split at h
  · rename_i a b c d hsp
    split at h
    · rename_i x1 x2 x3 x4 h1 h2 h3 h4
      obtain ⟨rfl⟩ : (⟨x1, x2, x3, x4⟩ : IPv4) = ip := by simpa using h
      obtain ⟨_, hd1, hv1⟩ := parseOctet_inv h1
      obtain ⟨_, hd2, hv2⟩ := parseOctet_inv h2
      obtain ⟨_, hd3, hv3⟩ := parseOctet_inv h3
      obtain ⟨_, hd4, hv4⟩ := parseOctet_inv h4
      refine ⟨⟨hv1, hv2, hv3, hv4⟩, ?_⟩
      intro ch hch
      rcases @splitOnCh_mem '.' _ _ hch with he | ⟨p, hp, hcp⟩
      · right; exact he
      · left
        rw [hsp] at hp
        simp only [List.mem_cons, List.mem_singleton,
          List.not_mem_nil, or_false] at hp
        rcases hp with hpa | hpb | hpc | hpd
        · exact hd1 ch (hpa ▸ hcp)
        · exact hd2 ch (hpb ▸ hcp)
        · exact hd3 ch (hpc ▸ hcp)
        · exact hd4 ch (hpd ▸ hcp)
    · exact absurd h (by simp)
  · exact absurd h (by simp)

theorem toNat_ofNat_ip {n : Nat} (h : n < 4294967296) :
    (IPv4.ofNat n).toNat = n := by
  show ((n / 16777216 % 256 * 256 + n / 65536 % 256) * 256 +
    n / 256 % 256) * 256 + n % 256 = n
  omega

theorem ofNat_valid (n : Nat) : ValidIPv4 (IPv4.ofNat n) := by
  unfold IPv4.ofNat ValidIPv4
  refine ⟨?_, ?_, ?_, ?_⟩ <;> simp <;> omega

theorem toNat_lt {ip : IPv4} (hv : ValidIPv4 ip) : ip.toNat < 4294967296 := by
  obtain ⟨h1, h2, h3, h4⟩ := hv
  unfold IPv4.toNat
  omega

theorem maskIP_valid (bits : Nat) (ip : IPv4) : ValidIPv4 (maskIP bits ip) :=
  ofNat_valid _

theorem maskIP_idem {bits : Nat} {ip : IPv4} (hv : ValidIPv4 ip) :
    maskIP bits (maskIP bits ip) = maskIP bits ip := by
  unfold maskIP
  have hd : 0 < 2 ^ (32 - bits) := Nat.pos_pow_of_pos _ (by omega)
  have hle : ip.toNat / 2 ^ (32 - bits) * 2 ^ (32 - bits) ≤ ip.toNat :=
    Nat.div_mul_le_self _ _
  rw [toNat_ofNat_ip (Nat.lt_of_le_of_lt hle (toNat_lt hv))]
  rw [Nat.mul_div_cancel _ hd]

theorem parseCIDR_inv {s : Str} {nw : IPNet} (h : parseCIDR s = some nw) :
    nw.bits ≤ 32 ∧ ValidIPv4 nw.base ∧ maskIP nw.bits nw.base = nw.base ∧
      ∀ c ∈ s, isDigit c = true ∨ c = '.' ∨ c = '/' := by
  unfold parseCIDR at h
  split at h
  · rename_i a m hsp
    split at h
    · rename_i ip bits hip hbits
      obtain ⟨rfl⟩ : (⟨maskIP bits ip, bits⟩ : IPNet) = nw := by simpa using h
      obtain ⟨hvip, hcip⟩ := parseIPv4_inv hip
      obtain ⟨hdm, hvm⟩ := parseMaskBits_inv hbits
      refine ⟨hvm, maskIP_valid _ _, maskIP_idem hvip, ?_⟩
      intro ch hch
      rcases @splitOnCh_mem '/' _ _ hch with he | ⟨p, hp, hcp⟩
      · right; right; exact he
      · rw [hsp] at hp
        simp only [List.mem_cons, List.mem_singleton,
          List.not_mem_nil, or_false] at hp
        rcases hp with hpa | hpm
        · rcases hcip ch (hpa ▸ hcp) with hd | hd
          · left; exact hd
          · right; left; exact hd
        · left; exact hdm ch (hpm ▸ hcp)
    · exact absurd h (by simp)
  · exact absurd h (by simp)

theorem head?_append_left {xs ys : Str} (h : xs ≠ []) :
    (xs ++ ys).head? = xs.head? := by
  cases xs with
  | nil => exact absurd rfl h
  | cons c cs => rfl

theorem head?_mem {s : Str} {c : Char} (h : s.head? = some c) : c ∈ s := by
  cases s with
  | nil => simp at h
  | cons x xs =>
    simp only [List.head?_cons, Option.some_inj] at h
    rw [← h]
    exact List.mem_cons_self x xs

theorem ipString_chars (ip : IPv4) :
    ∀ c ∈ ipString ip, isDigit c = true ∨ c = '.' := by
  intro c hc
  unfold ipString at hc
  rcases List.mem_append.mp hc with h1 | hrest
  · exact Or.inl ((natRepr_digits ip.o1).2 c h1)
  · rcases List.mem_cons.mp hrest with he | hrest2
    · exact Or.inr he
    · rcases List.mem_append.mp hrest2 with h2 | hrest3
      · exact Or.inl ((natRepr_digits ip.o2).2 c h2)
      · rcases List.mem_cons.mp hrest3 with he | hrest4
        · exact Or.inr he
        · rcases List.mem_append.mp hrest4 with h3 | hrest5
          · exact Or.inl ((natRepr_digits ip.o3).2 c h3)
          · rcases List.mem_cons.mp hrest5 with he | h4
            · exact Or.inr he
            · exact Or.inl ((natRepr_digits ip.o4).2 c h4)

theorem dot_not_mem_natRepr (n : Nat) : '.' ∉ natRepr n := by
  intro hm
  have := (natRepr_digits n).2 '.' hm
  simp [isDigit] at this

theorem slash_not_mem_ipString (ip : IPv4) : '/' ∉ ipString ip := by
  intro hm
  rcases ipString_chars ip '/' hm with hd | he
  · have := isDigit_toNat hd
    have : ('/').toNat = 47 := by decide
    omega
  · exact absurd he (by decide)

theorem parseIPv4_ipString {ip : IPv4} (hv : ValidIPv4 ip) :
    parseIPv4 (ipString ip) = some ip := by
  obtain ⟨h1, h2, h3, h4⟩ := hv
  unfold parseIPv4 ipString
  rw [splitOnCh_append (dot_not_mem_natRepr ip.o1),
    splitOnCh_append (dot_not_mem_natRepr ip.o2),
    splitOnCh_append (dot_not_mem_natRepr ip.o3),
    splitOnCh_of_not_mem (dot_not_mem_natRepr ip.o4)]
  dsimp only
  rw [parseOctet_natRepr ip.o1 (by omega), parseOctet_natRepr ip.o2 (by omega),
    parseOctet_natRepr ip.o3 (by omega), parseOctet_natRepr ip.o4 (by omega)]

theorem parseCIDR_ipString (ip : IPv4) : parseCIDR (ipString ip) = none := by
  unfold parseCIDR
  rw [splitOnCh_of_not_mem (slash_not_mem_ipString ip)]

theorem parseCIDR_netString {nw : IPNet} (h32 : nw.bits ≤ 32)
    (hv : ValidIPv4 nw.base) (hm : maskIP nw.bits nw.base = nw.base) :
    parseCIDR (netString nw) = some nw := by
  unfold parseCIDR netString
  rw [splitOnCh_append (slash_not_mem_ipString nw.base),
    splitOnCh_of_not_mem (show '/' ∉ natRepr nw.bits by
      intro hm2
      have hd := (natRepr_digits nw.bits).2 _ hm2
      have h47 : ('/').toNat = 47 := by decide
      have := isDigit_toNat hd
      omega)]
  dsimp only
  rw [parseIPv4_ipString hv, parseMaskBits_natRepr nw.bits h32]
  dsimp only
  rw [hm]

theorem ipString_length (ip : IPv4) : 7 ≤ (ipString ip).length := by
  unfold ipString
  have l1 := (natRepr_digits ip.o1).1
  have l2 := (natRepr_digits ip.o2).1
  have l3 := (natRepr_digits ip.o3).1
  have l4 := (natRepr_digits ip.o4).1
  simp only [List.length_append, List.length_cons]
  have hpos : ∀ s : Str, s ≠ [] → 1 ≤ s.length := by
    intro s hs
    cases s with
    | nil => exact absurd rfl hs
    | cons c cs => simp
  have a1 := hpos _ l1
  have a2 := hpos _ l2
  have a3 := hpos _ l3
  have a4 := hpos _ l4
  omega

theorem netString_length (nw : IPNet) : 6 ≤ (netString nw).length := by
  unfold netString
  have h7 := ipString_length nw.base
  simp only [List.length_append, List.length_cons]
  omega

/-! ### Decimal shape and number-lexer lemmas -/

theorem padZeros_digits {len : Nat} {s : Str} (h : ∀ c ∈ s, isDigit c = true) :
    ∀ c ∈ padZeros len s, isDigit c = true := by
  intro c hc
  unfold padZeros at hc
  rcases List.mem_append.mp hc with hm | hm
  · rw [List.eq_of_mem_replicate hm]
    decide
  · exact h c hm

theorem padZeros_length (len : Nat) (s : Str) :
    len ≤ (padZeros len s).length := by
  unfold padZeros
  simp only [List.length_append, List.length_replicate]
  omega

theorem withPoint_shape (n k : Nat) : FmtShapeU (withPoint n k) := by
  unfold withPoint
  by_cases hk : k = 0
  · rw [if_pos hk]
    exact Or.inl ⟨(natRepr_digits n).1, List.all_eq_true.mpr (by
      intro c hc
      simpa using (natRepr_digits n).2 c hc)⟩
  · rw [if_neg hk]
    right
    refine ⟨(padZeros (k + 1) (natRepr n)).take
        ((padZeros (k + 1) (natRepr n)).length - k),
      (padZeros (k + 1) (natRepr n)).drop
        ((padZeros (k + 1) (natRepr n)).length - k), rfl, ?_, ?_, ?_, ?_⟩
    · have hlen := padZeros_length (k + 1) (natRepr n)
      intro he
      have := congrArg List.length he
      simp only [List.length_take, List.length_nil] at this
      omega
    · exact List.all_eq_true.mpr (by
        intro c hc
        simpa using padZeros_digits (fun c hc => (natRepr_digits n).2 c hc) c
          (List.take_subset _ _ hc))
    · have hlen := padZeros_length (k + 1) (natRepr n)
      intro he
      have := congrArg List.length he
      simp only [List.length_drop, List.length_nil] at this
      omega
    · exact List.all_eq_true.mpr (by
        intro c hc
        simpa using padZeros_digits (fun c hc => (natRepr_digits n).2 c hc) c
          (List.drop_subset _ _ hc))

theorem formatFloatU_shape (x : ℚ) : FmtShapeU (formatFloatU x) := by
  show FmtShapeU
    (if 2 ^ multP 2 x.den * 5 ^ multP 5 x.den = x.den then
      withPoint (x * 10 ^ max (multP 2 x.den) (multP 5 x.den)).num.toNat
        (max (multP 2 x.den) (multP 5 x.den))
    else ['0'])
  split
  · exact withPoint_shape _ _
  · exact Or.inl ⟨by simp, by decide⟩

theorem formatFloat_shape (x : ℚ) : FmtShapeS (formatFloat x) := by
  unfold formatFloat
  split
  · exact Or.inr ⟨formatFloatU (-x), rfl, formatFloatU_shape (-x)⟩
  · exact Or.inl (formatFloatU_shape x)

theorem FmtShapeU_ne_nil {s : Str} (h : FmtShapeU s) : s ≠ [] := by
  rcases h with ⟨hne, _⟩ | ⟨d1, d2, rfl, hd1, _, _, _⟩
  · exact hne
  · simp

theorem FmtShapeU_head {s : Str} (h : FmtShapeU s) :
    ∃ c, s.head? = some c ∧ isDigit c = true := by
  rcases h with ⟨hne, hall⟩ | ⟨d1, d2, rfl, hd1, hall1, _, _⟩
  · cases s with
    | nil => exact absurd rfl hne
    | cons c cs =>
      exact ⟨c, rfl, by
        have := List.all_eq_true.mp hall c (List.mem_cons_self c cs)
        simpa using this⟩
  · cases d1 with
    | nil => exact absurd rfl hd1
    | cons c cs =>
      exact ⟨c, rfl, by
        have := List.all_eq_true.mp hall1 c (List.mem_cons_self c cs)
        simpa using this⟩

theorem FmtShapeU_chars {s : Str} (h : FmtShapeU s) :
    ∀ c ∈ s, isDigit c = true ∨ c = '.' := by
  rcases h with ⟨_, hall⟩ | ⟨d1, d2, rfl, _, hall1, _, hall2⟩
  · intro c hc
    exact Or.inl (by
      have := List.all_eq_true.mp hall c hc
      simpa using this)
  · intro c hc
    rcases List.mem_append.mp hc with hm | hm
    · exact Or.inl (by
        have := List.all_eq_true.mp hall1 c hm
        simpa using this)
    · rcases List.mem_cons.mp hm with he | hm2
      · exact Or.inr he
      · exact Or.inl (by
          have := List.all_eq_true.mp hall2 c hm2
          simpa using this)

theorem FmtShapeS_ne_nil {s : Str} (h : FmtShapeS s) : s ≠ [] := by
  rcases h with hu | ⟨u, rfl, _⟩
  · exact FmtShapeU_ne_nil hu
  · simp

theorem FmtShapeS_head {s : Str} (h : FmtShapeS s) :
    ∃ c, s.head? = some c ∧ (isDigit c = true ∨ c = '-') := by
  rcases h with hu | ⟨u, rfl, _⟩
  · obtain ⟨c, hc, hd⟩ := FmtShapeU_head hu
    exact ⟨c, hc, Or.inl hd⟩
  · exact ⟨'-', rfl, Or.inr rfl⟩

theorem FmtShapeS_chars {s : Str} (h : FmtShapeS s) :
    ∀ c ∈ s, isDigit c = true ∨ c = '.' ∨ c = '-' := by
  rcases h with hu | ⟨u, rfl, hu⟩
  · intro c hc
    rcases FmtShapeU_chars hu c hc with hd | he
    · exact Or.inl hd
    · exact Or.inr (Or.inl he)
  · intro c hc
    rcases List.mem_cons.mp hc with he | hm
    · exact Or.inr (Or.inr he)
    · rcases FmtShapeU_chars hu c hm with hd | he
      · exact Or.inl hd
      · exact Or.inr (Or.inl he)

theorem takeWhile_head_neg {p : Char → Bool} {s : Str}
    (h : ∀ c, s.head? = some c → ¬ p c = true) : s.takeWhile p = [] := by
  cases s with
  | nil => rfl
  | cons c cs => exact List.takeWhile_cons_of_neg (h c rfl)

theorem dropWhile_head_neg {p : Char → Bool} {s : Str}
    (h : ∀ c, s.head? = some c → ¬ p c = true) : s.dropWhile p = s := by
  cases s with
  | nil => rfl
  | cons c cs => exact List.dropWhile_cons_of_neg (h c rfl)

theorem lexNumCore_exact {n rest : Str} (hs : FmtShapeU n)
    (hrest : ∀ c, rest.head? = some c → ¬ isDigit c = true ∧ c ≠ '.') :
    lexNumCore (n ++ rest) = some (n, rest) := by
  have htw : rest.takeWhile (fun c => isDigit c) = [] :=
    takeWhile_head_neg (fun c hc => by simpa using (hrest c hc).1)
  have hdw : rest.dropWhile (fun c => isDigit c) = rest :=
    dropWhile_head_neg (fun c hc => by simpa using (hrest c hc).1)
  rcases hs with ⟨hne, hall⟩ | ⟨d1, d2, rfl, hd1, hall1, hd2, hall2⟩
  · have halln : ∀ c ∈ n, (fun c => isDigit c) c = true := by
      intro c hc
      have := List.all_eq_true.mp hall c hc
      simpa using this
    unfold lexNumCore
    simp only [takeWhile_append_all halln, dropWhile_append_all halln,
      htw, hdw, List.append_nil]
    cases hr : rest with
    | nil => simp [hne]
    | cons c cs =>
      have hcd := hrest c (by rw [hr]; rfl)
      split
      · rename_i r2 heq
        injection heq with h1 _
        exact absurd h1 hcd.2
      · rw [if_pos hne]
  · have halld1 : ∀ c ∈ d1, (fun c => isDigit c) c = true := by
      intro c hc
      have := List.all_eq_true.mp hall1 c hc
      simpa using this
    have halld2 : ∀ c ∈ d2, (fun c => isDigit c) c = true := by
      intro c hc
      have := List.all_eq_true.mp hall2 c hc
      simpa using this
    unfold lexNumCore
    rw [List.append_assoc, List.cons_append]
    simp only [takeWhile_append_all halld1,
      List.takeWhile_cons_of_neg (show ¬ isDigit '.' = true by decide),
      dropWhile_append_all halld1,
      List.dropWhile_cons_of_neg (show ¬ isDigit '.' = true by decide),
      List.append_nil, takeWhile_append_all halld2,
      dropWhile_append_all halld2, htw, hdw]
    rw [if_pos hd2]

theorem lexNumSigned_cons (c : Char) (cs : Str) :
    lexNumSigned (c :: cs) =
      if c = '-' ∨ c = '+' then
        (lexNumCore cs).map (fun p => (c :: p.1, p.2))
      else lexNumCore (c :: cs) := rfl

theorem lexNumSigned_exact {n rest : Str} (hs : FmtShapeS n)
    (hrest : ∀ c, rest.head? = some c → ¬ isDigit c = true ∧ c ≠ '.') :
    lexNumSigned (n ++ rest) = some (n, rest) := by
  rcases hs with hu | ⟨u, rfl, hu⟩
  · obtain ⟨c, hc, hd⟩ := FmtShapeU_head hu
    cases hn : n with
    | nil => exact absurd hn (FmtShapeU_ne_nil hu)
    | cons x xs =>
      subst hn
      simp only [List.head?_cons, Option.some_inj] at hc
      subst hc
      rw [List.cons_append, lexNumSigned_cons]
      rw [if_neg (by
        have := isDigit_toNat hd
        have h1 : ('-').toNat = 45 := by decide
        have h2 : ('+').toNat = 43 := by decide
        rintro (he | he) <;> subst he <;> omega)]
      rw [← List.cons_append]
      exact lexNumCore_exact hu hrest
  · rw [List.cons_append, lexNumSigned_cons,
      if_pos (Or.inl rfl), lexNumCore_exact hu hrest]
    rfl

theorem geofenceMatch_render {L G R : Str} (hL : FmtShapeS L) (hG : FmtShapeS G)
    (hR : FmtShapeU R) :
    geofenceMatch
        (L ++ (',' :: ' ' :: (G ++ (' ' :: '(' :: (R ++ ('m' :: [')'])))))) =
      some (L, G, R, ['m']) := by
  obtain ⟨g0, hg0, hg0d⟩ := FmtShapeS_head hG
  obtain ⟨r0, hr0, hr0d⟩ := FmtShapeU_head hR
  obtain ⟨gs, hGs⟩ : ∃ gs, G = g0 :: gs := by
    cases G with
    | nil => simp at hg0
    | cons x xs =>
      injection hg0 with hx
      exact ⟨xs, by rw [hx]⟩
  obtain ⟨rs, hRs⟩ : ∃ rs, R = r0 :: rs := by
    cases R with
    | nil => simp at hr0
    | cons x xs =>
      injection hr0 with hx
      exact ⟨xs, by rw [hx]⟩
  have hpred_g0 : (!(isDigit g0 || g0 == '-' || g0 == '+')) = false := by
    rcases hg0d with hd | he
    · simp [hd]
    · subst he; decide
  -- step 1: the latitude lexeme
  have h1 : lexNumSigned
      (L ++ (',' :: ' ' :: (G ++ (' ' :: '(' :: (R ++ ('m' :: [')'])))))) =
      some (L, ',' :: ' ' :: (G ++ (' ' :: '(' :: (R ++ ('m' :: [')']))))) :=
    lexNumSigned_exact hL (by
      intro c hc
      injection hc with hc
      subst hc
      exact ⟨by decide, by decide⟩)
  -- step 2: the first separator
  have hsep1t : (',' :: ' ' :: (G ++ (' ' :: '(' :: (R ++ ('m' :: [')']))))).takeWhile
      (fun c => !(isDigit c || c == '-' || c == '+')) = [',', ' '] := by
    rw [List.takeWhile_cons_of_pos (by decide),
      List.takeWhile_cons_of_pos (by decide), hGs, List.cons_append,
      List.takeWhile_cons_of_neg (by rw [hpred_g0]; simp)]
  have hsep1d : (',' :: ' ' :: (G ++ (' ' :: '(' :: (R ++ ('m' :: [')']))))).dropWhile
      (fun c => !(isDigit c || c == '-' || c == '+')) =
      G ++ (' ' :: '(' :: (R ++ ('m' :: [')']))) := by
    rw [List.dropWhile_cons_of_pos (by decide),
      List.dropWhile_cons_of_pos (by decide), hGs, List.cons_append,
      List.dropWhile_cons_of_neg (by rw [hpred_g0]; simp)]
  -- step 3: the longitude lexeme
  have h2 : lexNumSigned (G ++ (' ' :: '(' :: (R ++ ('m' :: [')'])))) =
      some (G, ' ' :: '(' :: (R ++ ('m' :: [')']))) :=
    lexNumSigned_exact hG (by
      intro c hc
      injection hc with hc
      subst hc
      exact ⟨by decide, by decide⟩)
  -- step 4: the radius separator
  have hsep2t : (' ' :: '(' :: (R ++ ('m' :: [')']))).takeWhile
      (fun c => !(isDigit c)) = [' ', '('] := by
    rw [List.takeWhile_cons_of_pos (by decide),
      List.takeWhile_cons_of_pos (by decide), hRs, List.cons_append,
      List.takeWhile_cons_of_neg (by simp [hr0d])]
  have hsep2d : (' ' :: '(' :: (R ++ ('m' :: [')']))).dropWhile
      (fun c => !(isDigit c)) = R ++ ('m' :: [')']) := by
    rw [List.dropWhile_cons_of_pos (by decide),
      List.dropWhile_cons_of_pos (by decide), hRs, List.cons_append,
      List.dropWhile_cons_of_neg (by simp [hr0d])]
  -- step 5: the radius lexeme
  have h3 : lexNumCore (R ++ ('m' :: [')'])) = some (R, 'm' :: [')']) :=
    lexNumCore_exact hR (by
      intro c hc
      injection hc with hc
      subst hc
      exact ⟨by decide, by decide⟩)
  unfold geofenceMatch
  rw [h1]
  simp only [hsep1t, hsep1d, h2, hsep2t, hsep2d, h3]
  simp [List.takeWhile, List.dropWhile]
  decide

theorem trimStr_subset {s : Str} : ∀ c ∈ trimStr s, c ∈ s := by
  intro c hc
  exact ( trimRight_prefix s).subset ((trimLeft_suffix (trimRight s)).subset hc)

theorem toLowerStr_eq_self_of_low {s : Str}
    (h : ∀ c ∈ toLowerStr s, c.toNat < 97 ∨ 122 < c.toNat) :
    toLowerStr s = s := by
  have hfix : ∀ c ∈ s, toLowerCh c = c := by
    intro c hc
    rcases toLowerCh_spec c with hfix | ⟨h1, h2, _, _⟩
    · exact hfix
    · have hmem : toLowerCh c ∈ toLowerStr s := toLowerCh_mem_str hc
      rcases h _ hmem with hlt | hgt <;> omega
  calc toLowerStr s = s.map id := List.map_congr_left hfix
    _ = s := List.map_id s

theorem toLower_parseCIDR_none {s : Str} (h : parseCIDR s = none) :
    parseCIDR (toLowerStr s) = none := by
  cases hres : parseCIDR (toLowerStr s) with
  | none => rfl
  | some nw =>
    obtain ⟨_, _, _, hchars⟩ := parseCIDR_inv hres
    have heq : toLowerStr s = s := toLowerStr_eq_self_of_low (by
      intro c hc
      rcases hchars c hc with hd | he | he
      · have := isDigit_toNat hd
        omega
      · subst he; left; decide
      · subst he; left; decide)
    rw [heq] at hres
    rw [hres] at h
    exact absurd h (by simp)

theorem toLower_parseIPv4_none {s : Str} (h : parseIPv4 s = none) :
    parseIPv4 (toLowerStr s) = none := by
  cases hres : parseIPv4 (toLowerStr s) with
  | none => rfl
  | some ip =>
    obtain ⟨_, hchars⟩ := parseIPv4_inv hres
    have heq : toLowerStr s = s := toLowerStr_eq_self_of_low (by
      intro c hc
      rcases hchars c hc with hd | he
      · have := isDigit_toNat hd
        omega
      · subst he; left; decide)
    rw [heq] at hres
    rw [hres] at h
    exact absurd h (by simp)

theorem trimLeft_toLower (s : Str) :
    trimLeft (toLowerStr s) = toLowerStr (trimLeft s) := by
  induction s with
  | nil => rfl
  | cons c cs ih =>
    show trimLeft (toLowerCh c :: toLowerStr cs) = _
    rw [trimLeft_cons, trimLeft_cons, isSpace_toLowerCh]
    split
    · exact ih
    · rfl

theorem trimRight_toLower (s : Str) :
    trimRight (toLowerStr s) = toLowerStr (trimRight s) := by
  induction s with
  | nil => rfl
  | cons c cs ih =>
    show trimRight (toLowerCh c :: toLowerStr cs) = _
    rw [trimRight_cons, trimRight_cons, ih, isSpace_toLowerCh]
    by_cases he : trimRight cs = []
    · rw [he]
      simp only [toLowerStr, List.map_nil, if_pos rfl]
      by_cases hs : isSpace c = true
      · rw [if_pos hs, if_pos hs]
        rfl
      · rw [if_neg hs, if_neg hs]
        rfl
    · rw [if_neg (by
        intro hmap
        exact he (List.map_eq_nil_iff.mp hmap)), if_neg he]
      rfl

theorem trimStr_toLower (s : Str) :
    trimStr (toLowerStr s) = toLowerStr (trimStr s) := by
  unfold trimStr
  rw [trimRight_toLower, trimLeft_toLower]

theorem parseDecimal_digit_head {s : Str} {c : Char} (hh : s.head? = some c)
    (hd : isDigit c = true) : parseDecimal s = parseDecimalU s := by
  cases s with
  | nil => simp at hh
  | cons x xs =>
    injection hh with hh
    subst hh
    have hx := isDigit_toNat hd
    unfold parseDecimal
    split
    · rename_i heq
      injection heq with h1 _
      subst h1
      have : ('-').toNat = 45 := by decide
      omega
    · rename_i heq
      injection heq with h1 _
      subst h1
      have : ('+').toNat = 43 := by decide
      omega
    · rfl

theorem parseLine2_inv {env : GoEnv} {neg : Bool} {line : Str}
    {r : BlacklistRule} (htr : trimStr line = line) (hhash : '#' ∉ line)
    (hnl : '\n' ∉ line)
    (hbang : neg = false → line.head? ≠ some '!')
    (hp : parseLine2 env neg line = .ok (some r)) (hc : r.Comment = []) :
    ParsedRule env r := by
  unfold parseLine2 at hp
  split at hp
  · rename_i hstar
    simp only [Except.ok.injEq, Option.some.injEq] at hp
    subst hp
    exact ParsedRule.all neg
  · rename_i hstar
    split at hp
    · simp at hp
    · rename_i hlen
      split at hp
      · rename_i hipcat
        simp only [Except.ok.injEq, Option.some.injEq] at hp
        subst hp
        -- the ipcat case
        have hlen6 : ¬ line.length < 6 := hlen
        have hne : line ≠ [] := by
          intro he
          rw [he] at hlen6
          simp at hlen6
        obtain ⟨c, hcl, hcs⟩ := trimStr_last htr hne
        by_cases hd6 : line.drop 6 = []
        · exfalso
          have hline : line = "ipcat ".toList := by
            calc line = line.take 6 ++ line.drop 6 :=
                (List.take_append_drop 6 line).symm
              _ = "ipcat ".toList := by
                rw [hipcat, hd6, List.append_nil]
          rw [hline] at hcl
          have hsp : c = ' ' := by
            rw [show (("ipcat ".toList : Str)).getLast? = some ' ' from rfl]
              at hcl
            injection hcl with hx
            exact hx.symm
          subst hsp
          exact hcs (by decide)
        · have hlast : (line.drop 6).getLast? = some c := by
            rw [← suffix_getLast? (List.drop_suffix 6 line) hd6]
            exact hcl
          exact ParsedRule.ipcat neg _ (trimStr_ne_nil_of_last hlast hcs)
            (trimStr_idem _)
            (fun hm => hhash (List.drop_subset 6 line (trimStr_subset _ hm)))
            (fun hm => hnl (List.drop_subset 6 line (trimStr_subset _ hm)))
      · rename_i hipcat
        simp only [Except.ok.injEq, Option.some.injEq] at hp
        have hlen6 : 6 ≤ line.length := Nat.le_of_not_lt hlen
        cases hline : line with
        | nil =>
          rw [hline] at hlen6
          simp at hlen6
        | cons c cs =>
          rw [hline] at hp
          unfold parseSwitch at hp
          split at hp
          · -- geofence branch ('@')
            unfold parseGeofenceRule at hp
            split at hp
            · subst hp
              simp at hc
            · split at hp
              · subst hp
                simp at hc
              · split at hp
                · subst hp
                  simp at hc
                · split at hp
                  · subst hp
                    simp at hc
                  · split at hp
                    · subst hp
                      simp at hc
                    · subst hp
                      exact ParsedRule.geof neg _
          · -- regexp branch ('~')
            rename_i rest heq
            injection heq with hceq hcseq
            subst hcseq
            unfold parseRegexpRule at hp
            split at hp
            · rename_i hval
              subst hp
              have hcsne : cs ≠ [] := by
                intro he
                rw [hline, he] at hlen6
                simp at hlen6
              obtain ⟨d, hdl, hds⟩ := trimStr_last htr (by
                rw [hline]
                exact List.cons_ne_nil c cs)
              have hdcs : cs.getLast? = some d := by
                rw [← suffix_getLast? (List.suffix_cons c cs) hcsne]
                rw [← hline]
                exact hdl
              exact ParsedRule.regex neg _ (trimStr_ne_nil_of_last hdcs hds)
                (trimStr_idem _)
                (fun hm => hhash (by
                  rw [hline]
                  exact List.mem_cons_of_mem c (trimStr_subset _ hm)))
                (fun hm => hnl (by
                  rw [hline]
                  exact List.mem_cons_of_mem c (trimStr_subset _ hm)))
                hval
            · subst hp
              simp at hc
          · -- CIDR / IP / hostname fall-through
            rename_i h1 h2
            unfold parseAddrRule at hp
            split at hp
            · rename_i nw hcidr
              subst hp
              obtain ⟨h32, hv, hm, _⟩ := parseCIDR_inv hcidr
              exact ParsedRule.network neg nw h32 hv hm
            · rename_i hcidr
              split at hp
              · rename_i ip hip
                subst hp
                exact ParsedRule.addr neg ip (parseIPv4_inv hip).1
              · rename_i hip
                subst hp
                rw [← hline] at hcidr hip h1 h2 ⊢
                refine ParsedRule.host neg (toLowerStr line) ?_ ?_ ?_ ?_ ?_ ?_
                  ?_ ?_ ?_ ?_ ?_ ?_
                · rw [hline]
                  show toLowerCh c :: toLowerStr cs ≠ []
                  exact List.cons_ne_nil _ _
                · rw [trimStr_toLower, htr]
                · intro hm
                  obtain ⟨d, hd, hde⟩ := List.mem_map.mp hm
                  exact hhash (toLowerCh_eq_special (by left; decide) hde ▸ hd)
                · intro hm
                  obtain ⟨d, hd, hde⟩ := List.mem_map.mp hm
                  exact hnl (toLowerCh_eq_special (by left; decide) hde ▸ hd)
                · exact toLowerStr_idem line
                · intro he
                  apply hstar
                  rw [hline] at he ⊢
                  have he2 : toLowerCh c :: toLowerStr cs = ['*'] := he
                  injection he2 with hx1 hx2
                  have hcc : c = '*' := toLowerCh_eq_special (by left; decide) hx1
                  have hcs2 : cs = [] := List.map_eq_nil_iff.mp hx2
                  rw [hcc, hcs2]
                · show 6 ≤ (toLowerStr line).length
                  unfold toLowerStr
                  rw [List.length_map]
                  exact hlen6
                · intro hh
                  rw [hline] at hh
                  have : toLowerCh c = '@' := by
                    injection hh with hx
                  exact h1 cs (by
                    rw [hline, toLowerCh_eq_special (by left; decide) this])
                · intro hh
                  rw [hline] at hh
                  have : toLowerCh c = '~' := by
                    injection hh with hx
                  exact h2 cs (by
                    rw [hline, toLowerCh_eq_special (by right; decide) this])
                · intro hfalse hh
                  rw [hline] at hh
                  have : toLowerCh c = '!' := by
                    injection hh with hx
                  exact hbang hfalse (by
                    rw [hline, toLowerCh_eq_special (by left; decide) this]
                    rfl)
                · exact toLower_parseCIDR_none hcidr
                · exact toLower_parseIPv4_none hip


theorem parseLine_inv {env : GoEnv} {l : Str} {r : BlacklistRule}
    (hnl : '\n' ∉ l) (hp : parseLine env l = .ok (some r))
    (hc : r.Comment = []) : ParsedRule env r := by
  unfold parseLine at hp
  split at hp
  · simp at hp
  · rename_i c cs heq
    have hsub : ∀ x ∈ c :: cs, x ∈ l := by
      intro x hx
      rw [← heq] at hx
      exact ( stripComment_prefix l).subset (trimStr_subset _ hx)
    have hhash : '#' ∉ (c :: cs) := by
      intro hm
      rw [← heq] at hm
      exact stripComment_no_hash l (trimStr_subset _ hm)
    have hnl2 : '\n' ∉ (c :: cs) := fun hm => hnl (hsub _ hm)
    have htr : trimStr (c :: cs) = c :: cs := by
      rw [← heq]
      exact trimStr_idem _
    split at hp
    · exact parseLine2_inv (trimStr_idem cs)
        (fun hm => hhash (List.mem_cons_of_mem c (trimStr_subset _ hm)))
        (fun hm => hnl2 (List.mem_cons_of_mem c (trimStr_subset _ hm)))
        (fun hfalse => absurd hfalse (by simp))
        hp hc
    · rename_i hcbang
      exact parseLine2_inv htr hhash hnl2
        (fun _ hh => by
          injection hh with hx
          exact hcbang hx)
        hp hc

theorem negPfx_body_trim {neg : Bool} {body : Str} (hne : body ≠ [])
    (htr : trimStr body = body) :
    trimStr ((if neg then ['!'] else []) ++ (body ++ [' '])) =
      (if neg then ['!'] else []) ++ body := by
  have hbr : trimRight (body ++ [' ']) = body := by
    rw [trimRight_append_space (by decide), trimRight_eq_self_of_trimStr htr]
  have hbody : trimStr (body ++ [' ']) = body := by
    rw [trimStr_append_space, htr]
  cases neg with
  | false =>
    simpa using hbody
  | true =>
    simp only [if_pos rfl, List.cons_append]
    show trimLeft (trimRight ('!' :: (body ++ [' ']))) = '!' :: body
    rw [trimRight_cons_of_ne_nil (by rw [hbr]; exact hne), hbr,
      trimLeft_cons_of_neg (by decide)]

theorem parseLine_render {env : GoEnv} {neg : Bool} {body t : Str}
    (hne : body ≠ []) (htr : trimStr body = body) (hhash : '#' ∉ body)
    (hbang : neg = false → body.head? ≠ some '!') :
    parseLine env
        ((if neg then ['!'] else []) ++ (body ++ (' ' :: '#' :: t))) =
      parseLine2 env neg body := by
  have h1 : stripComment
      ((if neg then ['!'] else []) ++ (body ++ (' ' :: '#' :: t))) =
      (if neg then ['!'] else []) ++ (body ++ [' ']) := by
    rw [show (if neg then ['!'] else []) ++ (body ++ (' ' :: '#' :: t)) =
      ((if neg then ['!'] else []) ++ (body ++ [' '])) ++ ('#' :: t) by
        simp]
    apply stripComment_append_hash
    intro hm
    rcases List.mem_append.mp hm with hm1 | hm2
    · cases neg with
      | false => simp at hm1
      | true =>
        simp only [if_pos rfl] at hm1
        rcases List.mem_singleton.mp hm1 with he
        exact absurd he (by decide)
    · rcases List.mem_append.mp hm2 with hm3 | hm4
      · exact hhash hm3
      · rcases List.mem_singleton.mp hm4 with he
        exact absurd he (by decide)
  unfold parseLine
  rw [h1, negPfx_body_trim hne htr]
  cases neg with
  | false =>
    simp only [if_neg (by simp : ¬ (false = true)), List.nil_append]
    cases body with
    | nil => exact absurd rfl hne
    | cons c cs =>
      have hcb : ¬ c = '!' := by
        intro he
        exact hbang rfl (by rw [he]; rfl)
      show (if c = '!' then parseLine2 env true (trimStr cs)
        else parseLine2 env false (c :: cs)) = _
      rw [if_neg hcb]
  | true =>
    simp only [if_pos rfl, List.cons_append]
    show (if ('!' : Char) = '!' then parseLine2 env true (trimStr body)
      else parseLine2 env false ('!' :: body)) = _
    rw [if_pos rfl, htr]

theorem parseLine_render_bare {env : GoEnv} {neg : Bool} {body : Str}
    (hne : body ≠ []) (htr : trimStr body = body) (hhash : '#' ∉ body)
    (hbang : neg = false → body.head? ≠ some '!') :
    parseLine env ((if neg then ['!'] else []) ++ body) =
      parseLine2 env neg body := by
  have h1 : stripComment ((if neg then ['!'] else []) ++ body) =
      (if neg then ['!'] else []) ++ body := by
    apply stripComment_of_no_hash
    intro hm
    rcases List.mem_append.mp hm with hm1 | hm2
    · cases neg with
      | false => simp at hm1
      | true =>
        simp only [if_pos rfl] at hm1
        rcases List.mem_singleton.mp hm1 with he
        exact absurd he (by decide)
    · exact hhash hm2
  have h2 : trimStr ((if neg then ['!'] else []) ++ body) =
      (if neg then ['!'] else []) ++ body := by
    cases neg with
    | false => simpa using htr
    | true =>
      simp only [if_pos rfl, List.cons_append]
      show trimLeft (trimRight ('!' :: body)) = '!' :: body
      rw [trimRight_cons_of_ne_nil (by
          rw [trimRight_eq_self_of_trimStr htr]
          exact hne),
        trimRight_eq_self_of_trimStr htr, trimLeft_cons_of_neg (by decide)]
  unfold parseLine
  rw [h1, h2]
  cases neg with
  | false =>
    simp only [if_neg (by simp : ¬ (false = true)), List.nil_append]
    cases body with
    | nil => exact absurd rfl hne
    | cons c cs =>
      have hcb : ¬ c = '!' := by
        intro he
        exact hbang rfl (by rw [he]; rfl)
      show (if c = '!' then parseLine2 env true (trimStr cs)
        else parseLine2 env false (c :: cs)) = _
      rw [if_neg hcb]
  | true =>
    simp only [if_pos rfl, List.cons_append]
    show (if ('!' : Char) = '!' then parseLine2 env true (trimStr body)
      else parseLine2 env false ('!' :: body)) = _
    rw [if_pos rfl, htr]

theorem trimStr_eq_self_of_ends {s : Str}
    (hhead : ∀ c, s.head? = some c → ¬ isSpace c = true)
    (hlast : ∀ c, s.getLast? = some c → ¬ isSpace c = true) :
    trimStr s = s := by
  cases hs : s with
  | nil => rfl
  | cons c cs =>
    have hne : s ≠ [] := by rw [hs]; simp
    obtain ⟨d, hd⟩ := Option.isSome_iff_exists.mp (List.getLast?_isSome.mpr hne)
    have htr : trimRight s = s := trimRight_last_not_space hd (hlast d hd)
    rw [← hs]
    unfold trimStr
    rw [htr, hs, trimLeft_cons_of_neg (hhead c (by rw [hs]; rfl))]

theorem getLast?_cons_of_ne_nil {c : Char} {xs : Str} (h : xs ≠ []) :
    (c :: xs).getLast? = xs.getLast? :=
  suffix_getLast? (List.suffix_cons c xs) h

theorem natRepr_head (n : Nat) :
    ∃ c, (natRepr n).head? = some c ∧ isDigit c = true := by
  obtain ⟨hne, hdig⟩ := natRepr_digits n
  cases hr : natRepr n with
  | nil => exact absurd hr hne
  | cons c cs => exact ⟨c, rfl, hdig c (by rw [hr]; exact List.mem_cons_self c cs)⟩

theorem natRepr_last (n : Nat) :
    ∃ c, (natRepr n).getLast? = some c ∧ isDigit c = true := by
  obtain ⟨hne, hdig⟩ := natRepr_digits n
  obtain ⟨c, hc⟩ := Option.isSome_iff_exists.mp (List.getLast?_isSome.mpr hne)
  exact ⟨c, hc, hdig c (List.mem_of_mem_getLast? hc)⟩

theorem isDigit_not_space {c : Char} (h : isDigit c = true) :
    ¬ isSpace c = true := by
  intro hs
  have := isDigit_toNat h
  have := isSpace_toNat hs
  omega

theorem take6_ne_ipcat_of_head {s : Str} {c : Char} (hh : s.head? = some c)
    (hc : c ≠ 'i') : s.take 6 ≠ "ipcat ".toList := by
  cases s with
  | nil => simp at hh
  | cons x xs =>
    injection hh with hh
    subst hh
    intro he
    rw [show (6 : Nat) = 5 + 1 from rfl, List.take_succ_cons] at he
    injection he with he1 _
    exact hc he1

theorem parseSwitch_default {env : GoEnv} {neg : Bool} {body : Str}
    (h1 : body.head? ≠ some '@') (h2 : body.head? ≠ some '~') :
    parseSwitch env neg body = parseAddrRule neg body := by
  cases body with
  | nil => rfl
  | cons c cs =>
    unfold parseSwitch
    split
    · rename_i rest heq
      injection heq with he1 _
      exact absurd (by rw [he1]; rfl) h1
    · rename_i rest heq
      injection heq with he1 _
      exact absurd (by rw [he1]; rfl) h2
    · rfl

theorem parseLine2_switch {env : GoEnv} {neg : Bool} {body : Str}
    (h1 : body ≠ ['*']) (h2 : ¬ body.length < 6)
    (h3 : body.take 6 ≠ "ipcat ".toList) :
    parseLine2 env neg body = .ok (some (parseSwitch env neg body)) := by
  unfold parseLine2
  rw [if_neg h1, if_neg h2, if_neg h3]

theorem parseLine2_is_ipcat {env : GoEnv} {neg : Bool} {body : Str}
    (h2 : ¬ body.length < 6) (h3 : body.take 6 = "ipcat ".toList) :
    parseLine2 env neg body =
      .ok (some { Negation := neg, IPCat := trimStr (body.drop 6) }) := by
  unfold parseLine2
  rw [if_neg (by
    intro he
    rw [he] at h2
    simp at h2), if_neg (by omega), if_pos h3]
theorem render_ipcat {neg : Bool} {q : Str} (h : q ≠ []) :
    BlacklistRule.String { Negation := neg, IPCat := q } =
      (if neg then ['!'] else []) ++ ("ipcat ".toList ++ q) := by
  unfold BlacklistRule.String
  dsimp only
  simp only [Option.isSome_none, Bool.false_eq_true, if_false, dite_false,
    ne_eq, not_true_eq_false, if_pos h, List.append_nil]

theorem render_host {neg : Bool} {hst : Str} (h : hst ≠ []) :
    BlacklistRule.String { Negation := neg, Hostname := hst } =
      (if neg then ['!'] else []) ++ (hst ++ " # Hostname".toList) := by
  unfold BlacklistRule.String
  dsimp only
  simp only [Option.isSome_none, Bool.false_eq_true, if_false, dite_false,
    ne_eq, not_true_eq_false, if_pos h, List.append_nil]

theorem reparse_all (env : GoEnv) (neg : Bool) :
    parseLine env (BlacklistRule.String { Negation := neg, All := true }) =
      .ok (some { Negation := neg, All := true }) := by
  rw [show BlacklistRule.String { Negation := neg, All := true } =
    (if neg then ['!'] else []) ++ (['*'] ++ (' ' :: '#' :: " Wildcard".toList))
    from rfl]
  rw [parseLine_render (by simp) (by decide) (by decide)
    (fun _ hh => by injection hh with hx; exact absurd hx (by decide))]
  unfold parseLine2
  rw [if_pos rfl]

theorem reparse_ipcat (env : GoEnv) (neg : Bool) {q : Str} (hne : q ≠ [])
    (htr : trimStr q = q) (hhash : '#' ∉ q) :
    parseLine env (BlacklistRule.String { Negation := neg, IPCat := q }) =
      .ok (some { Negation := neg, IPCat := q }) := by
  rw [render_ipcat hne]
  obtain ⟨d, hd, hds⟩ := trimStr_last htr hne
  have hbody_tr : trimStr ("ipcat ".toList ++ q) = "ipcat ".toList ++ q := by
    apply trimStr_eq_self_of_ends
    · intro c hc
      injection hc with hc
      subst hc
      decide
    · intro c hc
      rw [suffix_getLast?
          (show q <:+ "ipcat ".toList ++ q from ⟨"ipcat ".toList, rfl⟩) hne,
        hd] at hc
      injection hc with hc
      subst hc
      exact hds
  rw [parseLine_render_bare (by simp) hbody_tr
    (by
      intro hm
      rcases List.mem_append.mp hm with hm1 | hm2
      · exact absurd hm1 (by decide)
      · exact hhash hm2)
    (fun _ hh => by injection hh with hx; exact absurd hx (by decide))]
  rw [parseLine2_is_ipcat
    (by
      simp only [List.length_append]
      have h6 : ("ipcat ".toList : Str).length = 6 := by decide
      have : 1 ≤ q.length := by
        cases q with
        | nil => exact absurd rfl hne
        | cons a as => simp
      omega)
    (by
      rw [show (6 : Nat) = ("ipcat ".toList : Str).length from by decide,
        List.take_left])]
  rw [show ("ipcat ".toList ++ q).drop 6 = q from by
    rw [show (6 : Nat) = ("ipcat ".toList : Str).length from by decide,
      List.drop_left]]
  rw [htr]


theorem isDigit_ne {c d : Char} (h : isDigit c = true)
    (hd : d.toNat < 48 ∨ 57 < d.toNat) : c ≠ d := by
  intro he
  subst he
  have := isDigit_toNat h
  omega

theorem ipString_ne_nil (ip : IPv4) : ipString ip ≠ [] := by
  intro he
  have := ipString_length ip
  rw [he] at this
  simp at this

theorem ipString_head (ip : IPv4) :
    ∃ c, (ipString ip).head? = some c ∧ isDigit c = true := by
  obtain ⟨c, hc, hd⟩ := natRepr_head ip.o1
  refine ⟨c, ?_, hd⟩
  unfold ipString
  rw [head?_append_left (natRepr_digits ip.o1).1]
  exact hc

theorem natRepr_suffix_ipString (ip : IPv4) :
    natRepr ip.o4 <:+ ipString ip := by
  refine ⟨natRepr ip.o1 ++
    ('.' :: (natRepr ip.o2 ++ ('.' :: (natRepr ip.o3 ++ ['.'])))), ?_⟩
  unfold ipString
  simp

theorem ipString_last (ip : IPv4) :
    ∃ c, (ipString ip).getLast? = some c ∧ isDigit c = true := by
  obtain ⟨c, hc, hd⟩ := natRepr_last ip.o4
  refine ⟨c, ?_, hd⟩
  rw [suffix_getLast? (natRepr_suffix_ipString ip) (natRepr_digits ip.o4).1]
  exact hc

theorem netString_head (nw : IPNet) :
    ∃ c, (netString nw).head? = some c ∧ isDigit c = true := by
  obtain ⟨c, hc, hd⟩ := ipString_head nw.base
  refine ⟨c, ?_, hd⟩
  unfold netString
  rw [head?_append_left (ipString_ne_nil nw.base)]
  exact hc

theorem netString_last (nw : IPNet) :
    ∃ c, (netString nw).getLast? = some c ∧ isDigit c = true := by
  obtain ⟨c, hc, hd⟩ := natRepr_last nw.bits
  refine ⟨c, ?_, hd⟩
  rw [suffix_getLast? (show natRepr nw.bits <:+ netString nw from
    ⟨ipString nw.base ++ ['/'], by unfold netString; simp⟩)
    (natRepr_digits nw.bits).1]
  exact hc

theorem netString_chars (nw : IPNet) :
    ∀ c ∈ netString nw, isDigit c = true ∨ c = '.' ∨ c = '/' := by
  intro c hc
  unfold netString at hc
  rcases List.mem_append.mp hc with h1 | h2
  · rcases ipString_chars nw.base c h1 with hd | he
    · exact Or.inl hd
    · exact Or.inr (Or.inl he)
  · rcases List.mem_cons.mp h2 with he | h3
    · exact Or.inr (Or.inr he)
    · exact Or.inl ((natRepr_digits nw.bits).2 c h3)

theorem hash_not_mem_ipString (ip : IPv4) : '#' ∉ ipString ip := by
  intro hm
  rcases ipString_chars ip '#' hm with hd | he
  · have h1 := isDigit_toNat hd
    have h2 : ('#').toNat = 35 := by decide
    omega
  · exact absurd he (by decide)

theorem hash_not_mem_netString (nw : IPNet) : '#' ∉ netString nw := by
  intro hm
  rcases netString_chars nw '#' hm with hd | he | he
  · have h1 := isDigit_toNat hd
    have h2 : ('#').toNat = 35 := by decide
    omega
  · exact absurd he (by decide)
  · exact absurd he (by decide)

theorem trimStr_ipString (ip : IPv4) : trimStr (ipString ip) = ipString ip := by
  obtain ⟨c, hc, hd⟩ := ipString_head ip
  obtain ⟨d, hdl, hdd⟩ := ipString_last ip
  apply trimStr_eq_self_of_ends
  · intro x hx
    rw [hc] at hx
    injection hx with hx
    subst hx
    exact isDigit_not_space hd
  · intro x hx
    rw [hdl] at hx
    injection hx with hx
    subst hx
    exact isDigit_not_space hdd

theorem trimStr_netString (nw : IPNet) :
    trimStr (netString nw) = netString nw := by
  obtain ⟨c, hc, hd⟩ := netString_head nw
  obtain ⟨d, hdl, hdd⟩ := netString_last nw
  apply trimStr_eq_self_of_ends
  · intro x hx
    rw [hc] at hx
    injection hx with hx
    subst hx
    exact isDigit_not_space hd
  · intro x hx
    rw [hdl] at hx
    injection hx with hx
    subst hx
    exact isDigit_not_space hdd

theorem reparse_network (env : GoEnv) (neg : Bool) {nw : IPNet}
    (h32 : nw.bits ≤ 32) (hv : ValidIPv4 nw.base)
    (hm : maskIP nw.bits nw.base = nw.base) :
    parseLine env
        (BlacklistRule.String { Negation := neg, Network := some nw }) =
      .ok (some { Negation := neg, Network := some nw }) := by
  obtain ⟨c, hc, hd⟩ := netString_head nw
  have hlen := netString_length nw
  have hhd : ∀ d : Char, d.toNat < 48 ∨ 57 < d.toNat →
      (netString nw).head? ≠ some d := by
    intro d hrange hh
    rw [hc] at hh
    injection hh with hx
    exact isDigit_ne hd hrange hx
  rw [show BlacklistRule.String { Negation := neg, Network := some nw } =
    (if neg then ['!'] else []) ++
      (netString nw ++ (' ' :: '#' :: " Network".toList)) from rfl]
  rw [parseLine_render (ipString_ne_nil nw.base ∘ fun he => by
      unfold netString at he
      simpa using congrArg List.length he)
    (trimStr_netString nw) (hash_not_mem_netString nw)
    (fun _ => hhd '!' (by decide))]
  rw [parseLine2_switch
    (by
      intro he
      rw [he] at hlen
      simp at hlen)
    (by omega)
    (take6_ne_ipcat_of_head hc (isDigit_ne hd (by decide)))]
  rw [parseSwitch_default (hhd '@' (by decide)) (hhd '~' (by decide))]
  unfold parseAddrRule
  rw [parseCIDR_netString h32 hv hm]

theorem reparse_addr (env : GoEnv) (neg : Bool) {ip : IPv4}
    (hv : ValidIPv4 ip) :
    parseLine env (BlacklistRule.String { Negation := neg, IP := some ip }) =
      .ok (some { Negation := neg, IP := some ip }) := by
  obtain ⟨c, hc, hd⟩ := ipString_head ip
  have hlen := ipString_length ip
  have hhd : ∀ d : Char, d.toNat < 48 ∨ 57 < d.toNat →
      (ipString ip).head? ≠ some d := by
    intro d hrange hh
    rw [hc] at hh
    injection hh with hx
    exact isDigit_ne hd hrange hx
  rw [show BlacklistRule.String { Negation := neg, IP := some ip } =
    (if neg then ['!'] else []) ++
      (ipString ip ++ (' ' :: '#' :: " IP Address".toList)) from rfl]
  rw [parseLine_render (ipString_ne_nil ip) (trimStr_ipString ip)
    (hash_not_mem_ipString ip) (fun _ => hhd '!' (by decide))]
  rw [parseLine2_switch
    (by
      intro he
      rw [he] at hlen
      simp at hlen)
    (by omega)
    (take6_ne_ipcat_of_head hc (isDigit_ne hd (by decide)))]
  rw [parseSwitch_default (hhd '@' (by decide)) (hhd '~' (by decide))]
  unfold parseAddrRule
  rw [parseCIDR_ipString ip]
  dsimp only
  rw [parseIPv4_ipString hv]

theorem reparse_host (env : GoEnv) (neg : Bool) {h : Str} (hne : h ≠ [])
    (htr : trimStr h = h) (hhash : '#' ∉ h)
    (hstar : h ≠ ['*']) (hlen : 6 ≤ h.length)
    (hat : h.head? ≠ some '@') (htilde : h.head? ≠ some '~')
    (hbang : neg = false → h.head? ≠ some '!')
    (hcidr : parseCIDR h = none) (hip4 : parseIPv4 h = none)
    (hlow : toLowerStr h = h)
    (htake : h.take 6 ≠ "ipcat ".toList) :
    parseLine env (BlacklistRule.String { Negation := neg, Hostname := h }) =
      .ok (some { Negation := neg, Hostname := h }) := by
  rw [render_host hne,
    show (" # Hostname".toList : Str) = ' ' :: '#' :: " Hostname".toList
      from rfl]
  rw [parseLine_render hne htr hhash hbang]
  rw [parseLine2_switch hstar (by omega) htake, parseSwitch_default hat htilde]
  have hrw : parseAddrRule neg h = { Negation := neg, Hostname := h } := by
    unfold parseAddrRule
    rw [hcidr]
    dsimp only
    rw [hip4]
    dsimp only
    rw [hlow]
  rw [hrw]

theorem reparse_regex (env : GoEnv) (neg : Bool) {p : Str} (hne : p ≠ [])
    (htr : trimStr p = p) (hhash : '#' ∉ p) (hval : env.regexValid p = true)
    (hlen : 5 ≤ p.length) :
    parseLine env
        (BlacklistRule.String { Negation := neg, Regexp := some p }) =
      .ok (some { Negation := neg, Regexp := some p }) := by
  have htr2 : trimStr ('~' :: p) = '~' :: p := by
    show trimLeft (trimRight ('~' :: p)) = '~' :: p
    rw [trimRight_cons_of_ne_nil (by
        rw [trimRight_eq_self_of_trimStr htr]
        exact hne),
      trimRight_eq_self_of_trimStr htr, trimLeft_cons_of_neg (by decide)]
  rw [show BlacklistRule.String { Negation := neg, Regexp := some p } =
    (if neg then ['!'] else []) ++
      ('~' :: (p ++ (' ' :: '#' :: " Regular Expression".toList))) from rfl]
  rw [show ('~' :: (p ++ (' ' :: '#' :: " Regular Expression".toList)) : Str) =
    ('~' :: p) ++ (' ' :: '#' :: " Regular Expression".toList) from rfl]
  rw [parseLine_render (by simp) htr2
    (by
      intro hm
      rcases List.mem_cons.mp hm with he | hm2
      · exact absurd he (by decide)
      · exact hhash hm2)
    (fun _ hh => by injection hh with hx; exact absurd hx (by decide))]
  rw [parseLine2_switch (by
      intro he
      injection he with he1 _
      exact absurd he1 (by decide))
    (by
      simp only [List.length_cons]
      omega)
    (take6_ne_ipcat_of_head
      (show (('~' :: p : Str)).head? = some '~' from rfl) (by decide))]
  rw [show parseSwitch env neg ('~' :: p) =
    parseRegexpRule env neg (trimStr p) from rfl]
  rw [htr]
  unfold parseRegexpRule
  rw [if_pos hval]


theorem hash_toNat : ('#').toNat = 35 := by decide

theorem hash_not_mem_fmtU {s : Str} (h : FmtShapeU s) : '#' ∉ s := by
  intro hm
  rcases FmtShapeU_chars h '#' hm with hd | he
  · have h1 := isDigit_toNat hd
    have h2 := hash_toNat
    omega
  · exact absurd he (by decide)

theorem hash_not_mem_fmtS {s : Str} (h : FmtShapeS s) : '#' ∉ s := by
  intro hm
  rcases FmtShapeS_chars h '#' hm with hd | he | he
  · have h1 := isDigit_toNat hd
    have h2 := hash_toNat
    omega
  · exact absurd he (by decide)
  · exact absurd he (by decide)

theorem geofRender_assoc (L G R : Str) :
    ("@ ".toList ++ L ++ ", ".toList ++ G ++ " (".toList ++ R ++
      "m) # Geofence".toList : Str) =
    ('@' :: ' ' :: (L ++ (',' :: ' ' :: (G ++
      (' ' :: '(' :: (R ++ ('m' :: [')']))))))) ++
      (' ' :: '#' :: " Geofence".toList) := by
  rw [show ("@ ".toList : Str) = '@' :: [' '] from rfl,
    show (", ".toList : Str) = ',' :: [' '] from rfl,
    show (" (".toList : Str) = ' ' :: ['('] from rfl,
    show ("m) # Geofence".toList : Str) =
      'm' :: ')' :: ' ' :: '#' :: " Geofence".toList from rfl]
  simp

theorem reparse_geof (env : GoEnv) (neg : Bool) {g : Geofence}
    (hr0 : 0 ≤ g.Radius)
    (hlat : parseDecimal (formatFloat g.Latitude) = some g.Latitude)
    (hlng : parseDecimal (formatFloat g.Longitude) = some g.Longitude)
    (hrad : parseDecimal (formatFloat g.Radius) = some g.Radius) :
    parseLine env
        (BlacklistRule.String { Negation := neg, Geofence := some g }) =
      .ok (some { Negation := neg, Geofence := some g }) := by
  have hLs : FmtShapeS (formatFloat g.Latitude) := formatFloat_shape _
  have hGs : FmtShapeS (formatFloat g.Longitude) := formatFloat_shape _
  have hRU : FmtShapeU (formatFloat g.Radius) := by
    unfold formatFloat
    rw [if_neg (not_lt.mpr hr0)]
    exact formatFloatU_shape _
  have hRne : formatFloat g.Radius ≠ [] := FmtShapeU_ne_nil hRU
  have hLne : formatFloat g.Latitude ≠ [] := FmtShapeS_ne_nil hLs
  have hGne : formatFloat g.Longitude ≠ [] := FmtShapeS_ne_nil hGs
  obtain ⟨l0, hl0, hl0d⟩ := FmtShapeS_head hLs
  obtain ⟨ls, hLcons⟩ : ∃ ls, formatFloat g.Latitude = l0 :: ls := by
    cases hx : formatFloat g.Latitude with
    | nil => exact absurd hx hLne
    | cons x xs =>
      rw [hx] at hl0
      injection hl0 with hy
      exact ⟨xs, by rw [hy]⟩
  have hl0sp : ¬ isSpace l0 = true := by
    rcases hl0d with hd | he
    · exact isDigit_not_space hd
    · subst he; decide
  rw [show BlacklistRule.String { Negation := neg, Geofence := some g } =
    (if neg then ['!'] else []) ++
      ("@ ".toList ++ formatFloat g.Latitude ++ ", ".toList ++
        formatFloat g.Longitude ++ " (".toList ++ formatFloat g.Radius ++
        "m) # Geofence".toList) from rfl]
  rw [geofRender_assoc]
  have hlastB : ('@' :: ' ' :: (formatFloat g.Latitude ++ (',' :: ' ' ::
      (formatFloat g.Longitude ++ (' ' :: '(' ::
      (formatFloat g.Radius ++ ('m' :: [')']))))))).getLast? = some ')' := by
    rw [suffix_getLast? (show ([')'] : Str) <:+ _ from
      ⟨'@' :: ' ' :: (formatFloat g.Latitude ++ (',' :: ' ' ::
        (formatFloat g.Longitude ++ (' ' :: '(' ::
        (formatFloat g.Radius ++ ['m']))))), by simp⟩) (by simp)]
    rfl
  rw [parseLine_render (by simp)
    (trimStr_eq_self_of_ends
      (by
        intro c hc
        injection hc with hc
        subst hc
        decide)
      (by
        intro c hc
        rw [hlastB] at hc
        injection hc with hc
        subst hc
        decide))
    (by
      intro hm
      simp only [List.mem_cons, List.mem_append] at hm
      rcases hm with he | he | hm
      · exact absurd he (by decide)
      · exact absurd he (by decide)
      rcases hm with hm | he | he | hm
      · exact hash_not_mem_fmtS hLs hm
      · exact absurd he (by decide)
      · exact absurd he (by decide)
      rcases hm with hm | he | he | hm
      · exact hash_not_mem_fmtS hGs hm
      · exact absurd he (by decide)
      · exact absurd he (by decide)
      rcases hm with hm | he | he
      · exact hash_not_mem_fmtU hRU hm
      · exact absurd he (by decide)
      · exact absurd he (by decide))
    (fun _ hh => by injection hh with hx; exact absurd hx (by decide))]
  rw [parseLine2_switch
    (by
      intro he
      injection he with he1 _
      exact absurd he1 (by decide))
    (by
      simp only [List.length_cons, List.length_append]
      have a1 := List.length_pos.mpr hLne
      have a2 := List.length_pos.mpr hGne
      have a3 := List.length_pos.mpr hRne
      omega)
    (take6_ne_ipcat_of_head (show List.head? (('@' : Char) :: _) = some '@'
      from rfl) (by decide))]
  rw [show parseSwitch env neg ('@' :: ' ' :: (formatFloat g.Latitude ++
      (',' :: ' ' :: (formatFloat g.Longitude ++ (' ' :: '(' ::
      (formatFloat g.Radius ++ ('m' :: [')']))))))) =
    parseGeofenceRule neg (trimStr (' ' :: (formatFloat g.Latitude ++
      (',' :: ' ' :: (formatFloat g.Longitude ++ (' ' :: '(' ::
      (formatFloat g.Radius ++ ('m' :: [')'])))))))) from rfl]
  have htrRest : trimStr (' ' :: (formatFloat g.Latitude ++
      (',' :: ' ' :: (formatFloat g.Longitude ++ (' ' :: '(' ::
      (formatFloat g.Radius ++ ('m' :: [')']))))))) =
      formatFloat g.Latitude ++ (',' :: ' ' :: (formatFloat g.Longitude ++
        (' ' :: '(' :: (formatFloat g.Radius ++ ('m' :: [')']))))) := by
    show trimLeft (trimRight _) = _
    rw [trimRight_last_not_space
      (show List.getLast? (' ' :: (formatFloat g.Latitude ++
        (',' :: ' ' :: (formatFloat g.Longitude ++ (' ' :: '(' ::
        (formatFloat g.Radius ++ ('m' :: [')']))))))) = some ')' by
        rw [suffix_getLast? (show ([')'] : Str) <:+ _ from
          ⟨' ' :: (formatFloat g.Latitude ++ (',' :: ' ' ::
            (formatFloat g.Longitude ++ (' ' :: '(' ::
            (formatFloat g.Radius ++ ['m']))))), by simp⟩) (by simp)]
        rfl)
      (by decide)]
    rw [trimLeft_cons, if_pos (by decide), hLcons, List.cons_append,
      trimLeft_cons_of_neg hl0sp]
  rw [htrRest]
  have hpg : parseGeofenceRule neg (formatFloat g.Latitude ++
      (',' :: ' ' :: (formatFloat g.Longitude ++ (' ' :: '(' ::
      (formatFloat g.Radius ++ ('m' :: [')'])))))) =
      { Negation := neg, Geofence := some g } := by
    unfold parseGeofenceRule
    rw [geofenceMatch_render hLs hGs hRU]
    dsimp only
    rw [hlat]
    dsimp only
    rw [hlng]
    dsimp only
    rw [if_neg hRne, hrad]
    dsimp only
    rw [show geofenceUnits (toLowerStr ['m']) = some 1 from rfl]
    dsimp only
    rw [mul_one]
  rw [hpg]


/-- C7 (amended): the parse → render → parse round trip.  For every rule
parsed from a newline-free line (up to the intentional normalizations the
claim names: hostnames lower-cased, radius in meters), re-parsing the
rendered text yields the same rule — provided the rule is not one of the
failing shapes: a Hostname beginning with `ipcat ` (re-parsed as a
Category rule), a Regexp shorter than five characters (the re-parse
panics on `line[:6]`), and a Geofence whose numerals do not survive the
format/parse cycle (the hypothesis strconv's shortest-decimal output
guarantees). -/
theorem claim_C7_roundtrip (env : GoEnv) {l : Str} {r : BlacklistRule}
    (hnl : '\n' ∉ l) (hp : parseLine env l = .ok (some r))
    (hc : r.Comment = [])
    (hhost : r.Hostname.take 6 ≠ "ipcat ".toList ∨ r.Hostname = [])
    (hre : ∀ p, r.Regexp = some p → 5 ≤ p.length)
    (hgeo : ∀ g, r.Geofence = some g → 0 ≤ g.Radius ∧
      parseDecimal (formatFloat g.Latitude) = some g.Latitude ∧
      parseDecimal (formatFloat g.Longitude) = some g.Longitude ∧
      parseDecimal (formatFloat g.Radius) = some g.Radius) :
    parseLine env (BlacklistRule.String r) = .ok (some r) := by
  have hpr := parseLine_inv hnl hp hc
  cases hpr with
  | all neg => exact reparse_all env neg
  | network neg nw h32 hv hm => exact reparse_network env neg h32 hv hm
  | addr neg ip hv => exact reparse_addr env neg hv
  | host neg h hne htr hhash hnl2 hlow hstar hlen hat htilde hbang hcidr
      hip4 =>
    refine reparse_host env neg hne htr hhash hstar hlen hat htilde hbang
      hcidr hip4 hlow ?_
    rcases hhost with ht | hnil
    · exact ht
    · exact absurd hnil hne
  | regex neg p hne htr hhash hnl2 hval =>
    exact reparse_regex env neg hne htr hhash hval (hre p rfl)
  | geof neg g =>
    obtain ⟨h0, h1, h2, h3⟩ := hgeo g rfl
    exact reparse_geof env neg h0 h1 h2 h3
  | ipcat neg q hne htr hhash hnl2 => exact reparse_ipcat env neg hne htr hhash

/-- C7 witness: the round trip at the concrete line `10.0.0.0/8`. -/
theorem claim_C7_witness :
    parseLine env0 "10.0.0.0/8".toList = .ok (some rC7) ∧
    parseLine env0 (BlacklistRule.String rC7) = .ok (some rC7) :=
  ⟨by decide,
    claim_C7_roundtrip env0 (l := "10.0.0.0/8".toList) (by decide) (by decide)
      (by decide) (Or.inr rfl) (fun _ hp => Option.noConfusion hp)
      (fun _ hg => Option.noConfusion hg)⟩

/-- C7 counterexample to the unamended claim: the line `IPCAT x` parses to
a Hostname rule whose text begins with `ipcat `; its rendering re-parses
as a Category rule, not the original.  And the line `~  abc` parses to a
Regexp rule whose rendering, shorter than six bytes after trimming,
panics the parser on `line[:6]`. -/
theorem claim_C7_counterexample :
    parseLine env0 "IPCAT x".toList =
      .ok (some { Hostname := "ipcat x".toList }) ∧
    parseLine env0 (BlacklistRule.String { Hostname := "ipcat x".toList }) =
      .ok (some { IPCat := ['x'] }) ∧
    ({ Hostname := "ipcat x".toList } : BlacklistRule) ≠
      { IPCat := ['x'] } ∧
    parseLine env0 "~  abc".toList =
      .ok (some { Regexp := some "abc".toList }) ∧
    parseLine env0 (BlacklistRule.String { Regexp := some "abc".toList }) =
      .error slicePanicMsg := by
  decide

end Zerodrop
